import Mathlib

/-!
Verification of the peer message-processing core of the xuez node
(src/services/chain/messages.cpp) against its specification.

The C++ global state (mapNodeState, mapBlocksInFlight, mapBlockSource,
mapOrphanTransactions, mapOrphanTransactionsByPrev, recentRejects and the
global counters) is shallowly embedded: `std::map`/`std::list` become
association lists and lists, `uint256` becomes `Nat` (only equality is
used), machine integers become `Int`, and external collaborators
(mempool, coin view, clock, randomness, transport) become explicit
parameters.  Each embedded operation is translated line by line from the
corresponding C++ function.
-/

namespace Xuez

/-- C++ `NodeId` (`int64_t`). -/
abbrev NodeId := Int

/-- C++ `uint256`; only equality and ordering are used by the embedded code. -/
abbrev Uint256 := Nat

section AssocList

variable {κ β : Type} [DecidableEq κ]

/-- First element of a list satisfying `p` (the embedding of iterator
`find`-style searches). -/
def findFirst (p : α → Bool) : List α → Option α
  | [] => none
  | x :: xs => if p x then some x else findFirst p xs

/-- Remove the first element satisfying `p` (the embedding of erasing a
container element through an iterator). -/
def eraseFirst (p : α → Bool) : List α → List α
  | [] => []
  | x :: xs => if p x then xs else x :: eraseFirst p xs


theorem findFirst_mem {p : α → Bool} {l : List α} {a : α}
    (h : findFirst p l = some a) : a ∈ l := by
  induction l with
  | nil => simp [findFirst] at h
  | cons x xs ih =>
    simp only [findFirst] at h
    split at h
    · cases h; exact List.mem_cons_self _ _
    · exact List.mem_cons_of_mem _ (ih h)

theorem findFirst_prop {p : α → Bool} {l : List α} {a : α}
    (h : findFirst p l = some a) : p a = true := by
  induction l with
  | nil => simp [findFirst] at h
  | cons x xs ih =>
    simp only [findFirst] at h
    split at h
    · cases h; assumption
    · exact ih h

theorem findFirst_eq_none {p : α → Bool} {l : List α}
    (h : ∀ x ∈ l, p x = false) : findFirst p l = none := by
  induction l with
  | nil => rfl
  | cons x xs ih =>
    simp only [findFirst]
    rw [h x (List.mem_cons_self _ _)]
    simp only [Bool.false_eq_true, if_false]
    exact ih fun x hx => h x (List.mem_cons_of_mem _ hx)

theorem findFirst_isSome_of_mem {p : α → Bool} {l : List α} {x : α}
    (hx : x ∈ l) (hp : p x = true) : ∃ a, findFirst p l = some a := by
  induction l with
  | nil => cases hx
  | cons y ys ih =>
    simp only [findFirst]
    by_cases hy : p y = true
    · exact ⟨y, by simp [hy]⟩
    · rcases List.mem_cons.mp hx with rfl | hx'
      · exact absurd hp hy
      · rcases ih hx' with ⟨a, ha⟩
        exact ⟨a, by simp [hy, ha]⟩

theorem eraseFirst_of_none {p : α → Bool} {l : List α}
    (h : findFirst p l = none) : eraseFirst p l = l := by
  induction l with
  | nil => rfl
  | cons x xs ih =>
    simp only [findFirst] at h
    simp only [eraseFirst]
    split at h
    · cases h
    · next hpx =>
      rw [if_neg hpx, ih h]

theorem length_eraseFirst {p : α → Bool} {l : List α} {a : α}
    (h : findFirst p l = some a) : l.length = (eraseFirst p l).length + 1 := by
  induction l with
  | nil => simp [findFirst] at h
  | cons x xs ih =>
    simp only [findFirst] at h
    simp only [eraseFirst]
    split at h
    · next hpx => rw [if_pos hpx]; simp
    · next hpx => rw [if_neg hpx]; simp [ih h]

theorem filter_length_eraseFirst {p q : α → Bool} {l : List α} {a : α}
    (h : findFirst p l = some a) :
    (l.filter q).length
      = ((eraseFirst p l).filter q).length + (if q a then 1 else 0) := by
  induction l with
  | nil => simp [findFirst] at h
  | cons x xs ih =>
    simp only [findFirst] at h
    simp only [eraseFirst]
    split at h
    · next hpx =>
      cases h
      rw [if_pos hpx]
      by_cases hq : q a <;> simp [List.filter_cons, hq]
    · next hpx =>
      rw [if_neg hpx]
      by_cases hq : q x
      · simp [List.filter_cons, hq, ih h]; omega
      · simp [List.filter_cons, hq, ih h]

theorem eraseFirst_sublist (p : α → Bool) (l : List α) :
    (eraseFirst p l).Sublist l := by
  induction l with
  | nil => exact List.Sublist.refl _
  | cons x xs ih =>
    simp only [eraseFirst]
    split
    · exact List.sublist_cons_self _ _
    · exact ih.cons₂ x

theorem eraseFirst_subset {p : α → Bool} {l : List α} {x : α}
    (h : x ∈ eraseFirst p l) : x ∈ l :=
  (eraseFirst_sublist p l).subset h

theorem mem_eraseFirst_of_not {p : α → Bool} {l : List α} {x : α}
    (hx : x ∈ l) (hp : p x = false) : x ∈ eraseFirst p l := by
  induction l with
  | nil => cases hx
  | cons y ys ih =>
    simp only [eraseFirst]
    rcases List.mem_cons.mp hx with rfl | hx'
    · rw [if_neg (by simp [hp])]
      exact List.mem_cons_self _ _
    · split
      · exact hx'
      · exact List.mem_cons_of_mem _ (ih hx')

/-- `std::map` lookup on an association list. -/
def mapFind (k : κ) : List (κ × β) → Option β
  | [] => none
  | kv :: rest => if kv.1 = k then some kv.2 else mapFind k rest

/-- `std::map` `operator[] =`: replace the entry for `k` if present,
otherwise append a new entry. -/
def mapSet (k : κ) (v : β) : List (κ × β) → List (κ × β)
  | [] => [(k, v)]
  | kv :: rest => if kv.1 = k then (k, v) :: rest else kv :: mapSet k v rest

/-- `std::map::erase(k)`: remove the (first) entry for `k`. -/
def mapErase (k : κ) : List (κ × β) → List (κ × β)
  | [] => []
  | kv :: rest => if kv.1 = k then rest else kv :: mapErase k rest

theorem mapFind_mem {k : κ} {m : List (κ × β)} {v : β}
    (h : mapFind k m = some v) : (k, v) ∈ m := by
  induction m with
  | nil => cases h
  | cons x xs ih =>
    simp only [mapFind] at h
    split at h
    · next hx =>
      cases h
      rcases x with ⟨k', v'⟩
      cases hx
      exact List.mem_cons_self _ _
    · exact List.mem_cons_of_mem _ (ih h)

theorem mapFind_eq_none_iff {k : κ} {m : List (κ × β)} :
    mapFind k m = none ↔ ∀ kv ∈ m, kv.1 ≠ k := by
  induction m with
  | nil => simp [mapFind]
  | cons x xs ih =>
    simp only [mapFind]
    by_cases hx : x.1 = k
    · simp only [hx, if_true]
      constructor
      · intro h; cases h
      · intro h; exact absurd hx (h x (List.mem_cons_self _ _))
    · simp only [hx, if_false, ih]
      constructor
      · intro h kv hkv
        rcases List.mem_cons.mp hkv with rfl | hkv'
        · exact hx
        · exact h kv hkv'
      · intro h kv hkv
        exact h kv (List.mem_cons_of_mem _ hkv)

theorem mapFind_isSome_of_mem {m : List (κ × β)} {kv : κ × β}
    (hm : kv ∈ m) : mapFind kv.1 m ≠ none := by
  intro h
  exact (mapFind_eq_none_iff.mp h) kv hm rfl

theorem mapFind_of_mem_nodup {m : List (κ × β)} {kv : κ × β}
    (hnd : (m.map Prod.fst).Nodup) (hm : kv ∈ m) :
    mapFind kv.1 m = some kv.2 := by
  induction m with
  | nil => cases hm
  | cons x xs ih =>
    simp only [List.map_cons, List.nodup_cons] at hnd
    rcases List.mem_cons.mp hm with rfl | hm'
    · simp [mapFind]
    · have hx : ¬ x.1 = kv.1 := by
        intro hc
        exact hnd.1 (hc ▸ List.mem_map_of_mem Prod.fst hm')
      simp only [mapFind, hx, if_false]
      exact ih hnd.2 hm'

theorem mapFind_mapSet_self (k : κ) (v : β) (m : List (κ × β)) :
    mapFind k (mapSet k v m) = some v := by
  induction m with
  | nil => simp [mapFind, mapSet]
  | cons x xs ih =>
    simp only [mapSet]
    split
    · simp [mapFind]
    · next hx =>
      simp only [mapFind, hx, if_false]
      exact ih

theorem mapFind_mapSet_ne {k k' : κ} (hne : k' ≠ k) (v : β) (m : List (κ × β)) :
    mapFind k' (mapSet k v m) = mapFind k' m := by
  induction m with
  | nil => simp [mapFind, mapSet, Ne.symm hne]
  | cons x xs ih =>
    simp only [mapSet]
    split
    · next hx =>
      have hx1 : ¬ x.1 = k' := fun hc => hne (by rw [← hc, hx])
      simp [mapFind, Ne.symm hne, hx1]
    · next hx =>
      by_cases hxk : x.1 = k'
      · simp [mapFind, hxk]
      · simp only [mapFind, hxk, if_false]
        exact ih

theorem mapSet_of_none {k : κ} {m : List (κ × β)}
    (h : mapFind k m = none) (v : β) : mapSet k v m = m ++ [(k, v)] := by
  induction m with
  | nil => rfl
  | cons x xs ih =>
    simp only [mapFind] at h
    split at h
    · cases h
    · next hx =>
      simp only [mapSet, hx, if_false, List.cons_append]
      rw [ih h]

theorem keys_mapSet_of_some {k : κ} {m : List (κ × β)} {v0 : β}
    (h : mapFind k m = some v0) (v : β) :
    (mapSet k v m).map Prod.fst = m.map Prod.fst := by
  induction m with
  | nil => cases h
  | cons x xs ih =>
    simp only [mapFind] at h
    simp only [mapSet]
    split at h
    · next hx => simp [hx]
    · next hx =>
      simp only [hx, if_false, List.map_cons]
      rw [ih h]

theorem mem_mapSet {k : κ} {v : β} {m : List (κ × β)} {kv : κ × β}
    (h : kv ∈ mapSet k v m) : kv = (k, v) ∨ kv ∈ m := by
  induction m with
  | nil => simp [mapSet] at h; left; exact h
  | cons x xs ih =>
    simp only [mapSet] at h
    split at h
    · rcases List.mem_cons.mp h with rfl | h'
      · left; rfl
      · right; exact List.mem_cons_of_mem _ h'
    · rcases List.mem_cons.mp h with rfl | h'
      · right; exact List.mem_cons_self _ _
      · rcases ih h' with h'' | h''
        · left; exact h''
        · right; exact List.mem_cons_of_mem _ h''

theorem mapErase_of_none {k : κ} {m : List (κ × β)}
    (h : mapFind k m = none) : mapErase k m = m := by
  induction m with
  | nil => rfl
  | cons x xs ih =>
    simp only [mapFind] at h
    split at h
    · cases h
    · next hx =>
      simp only [mapErase, hx, if_false]
      rw [ih h]

theorem mapFind_mapErase_ne {k k' : κ} (hne : k' ≠ k) (m : List (κ × β)) :
    mapFind k' (mapErase k m) = mapFind k' m := by
  induction m with
  | nil => rfl
  | cons x xs ih =>
    simp only [mapErase]
    split
    · next hx =>
      have hx1 : ¬ x.1 = k' := fun hc => hne (by rw [← hc, hx])
      simp [mapFind, hx1]
    · next hx =>
      by_cases hxk : x.1 = k'
      · simp [mapFind, hxk]
      · simp only [mapFind, hxk, if_false]
        exact ih

theorem keys_mapErase_sublist (k : κ) (m : List (κ × β)) :
    ((mapErase k m).map Prod.fst).Sublist (m.map Prod.fst) := by
  induction m with
  | nil => exact List.Sublist.refl _
  | cons x xs ih =>
    simp only [mapErase]
    split
    · exact List.sublist_cons_self _ _
    · simpa using ih.cons₂ x.1

theorem mapErase_subset {k : κ} {m : List (κ × β)} {kv : κ × β}
    (h : kv ∈ mapErase k m) : kv ∈ m := by
  induction m with
  | nil => cases h
  | cons x xs ih =>
    simp only [mapErase] at h
    split at h
    · exact List.mem_cons_of_mem _ h
    · rcases List.mem_cons.mp h with rfl | h'
      · exact List.mem_cons_self _ _
      · exact List.mem_cons_of_mem _ (ih h')

theorem key_ne_of_mem_mapErase {k : κ} {m : List (κ × β)} {kv : κ × β}
    (hnd : (m.map Prod.fst).Nodup) (h : kv ∈ mapErase k m) : kv.1 ≠ k := by
  induction m with
  | nil => cases h
  | cons x xs ih =>
    simp only [List.map_cons, List.nodup_cons] at hnd
    simp only [mapErase] at h
    split at h
    · next hx =>
      intro hc
      exact hnd.1 (by rw [hx, ← hc]; exact List.mem_map_of_mem Prod.fst h)
    · next hx =>
      rcases List.mem_cons.mp h with rfl | h'
      · exact hx
      · exact ih hnd.2 h'

theorem mapFind_mapErase_self {k : κ} {m : List (κ × β)}
    (hnd : (m.map Prod.fst).Nodup) : mapFind k (mapErase k m) = none := by
  rw [mapFind_eq_none_iff]
  exact fun kv hkv => key_ne_of_mem_mapErase hnd hkv

theorem mapFind_append (k : κ) (a b : List (κ × β)) :
    mapFind k (a ++ b)
      = match mapFind k a with
        | some v => some v
        | none => mapFind k b := by
  induction a with
  | nil => simp [mapFind]
  | cons x xs ih =>
    simp only [List.cons_append, mapFind]
    split
    · rfl
    · exact ih

theorem length_mapErase_of_some {k : κ} {m : List (κ × β)} {v : β}
    (h : mapFind k m = some v) : m.length = (mapErase k m).length + 1 := by
  induction m with
  | nil => cases h
  | cons x xs ih =>
    simp only [mapFind] at h
    simp only [mapErase]
    split at h
    · next hx => rw [if_pos hx]; simp
    · next hx => rw [if_neg hx]; simp [ih h]

/-- Number of entries whose value satisfies `P`. -/
def countP (P : β → Bool) (m : List (κ × β)) : Nat :=
  (m.filter (fun kv => P kv.2)).length

theorem countP_append (P : β → Bool) (a b : List (κ × β)) :
    countP P (a ++ b) = countP P a + countP P b := by
  simp [countP, List.filter_append]

theorem countP_mapSet {k : κ} {m : List (κ × β)} {v : β}
    (h : mapFind k m = some v) (P : β → Bool) (v' : β) :
    countP P (mapSet k v' m) + (if P v then 1 else 0)
      = countP P m + (if P v' then 1 else 0) := by
  induction m with
  | nil => cases h
  | cons x xs ih =>
    simp only [mapFind] at h
    simp only [mapSet]
    split at h
    · next hx =>
      cases h
      rw [if_pos hx]
      by_cases hP : P x.2 <;> by_cases hP' : P v' <;>
        simp [countP, List.filter_cons, hP, hP']
    · next hx =>
      rw [if_neg hx]
      have ih' := ih h
      simp only [countP] at ih' ⊢
      by_cases hP : P x.2 <;> simp [List.filter_cons, hP] <;> omega

theorem countP_mapErase {k : κ} {m : List (κ × β)} {v : β}
    (h : mapFind k m = some v) (P : β → Bool) :
    countP P m = countP P (mapErase k m) + (if P v then 1 else 0) := by
  induction m with
  | nil => cases h
  | cons x xs ih =>
    simp only [mapFind] at h
    simp only [mapErase]
    split at h
    · next hx =>
      cases h
      rw [if_pos hx]
      by_cases hP : P x.2 <;> simp [countP, List.filter_cons, hP]
    · next hx =>
      rw [if_neg hx]
      have ih' := ih h
      simp only [countP] at ih' ⊢
      by_cases hP : P x.2 <;> simp [List.filter_cons, hP] <;> omega

end AssocList

/-! ## Data model

Embedded from `messages.cpp`.  `QueuedBlock` and `CNodeState` are declared
in `messages.h`, which is not part of the excerpt; their fields are those
the excerpt uses, and the fresh-state initialisation is modelled from the
spec (see `initialNodeState`). -/

/-- An entry of a peer's `vBlocksInFlight` list: `{hash, pindex,
fValidatedHeaders}` as built by `MarkBlockAsInFlight`
(`QueuedBlock newentry = {hash, pindex, pindex != NULL}`). -/
structure QueuedBlock where
  hash : Uint256
  pindex : Option Nat
  fValidatedHeaders : Bool
deriving DecidableEq

/-- Per-peer state (the fields of `CNodeState` used by the excerpt). -/
structure CNodeState where
  nMisbehavior : Int
  fShouldBan : Bool
  fCurrentlyConnected : Bool
  fSyncStarted : Bool
  fPreferredDownload : Bool
  vBlocksInFlight : List QueuedBlock
  nBlocksInFlight : Int
  nBlocksInFlightValidHeaders : Int
  nDownloadingSince : Int
  nStallingSince : Int
deriving DecidableEq

/-- Modelled from the spec: `CNodeState`'s constructor lives in
`messages.h`, which is missing from the excerpt.  Per the spec's data
model (§3) a fresh peer record starts with zero counters, empty in-flight
list and all flags clear. -/
def initialNodeState : CNodeState :=
  { nMisbehavior := 0
    fShouldBan := false
    fCurrentlyConnected := false
    fSyncStarted := false
    fPreferredDownload := false
    vBlocksInFlight := []
    nBlocksInFlight := 0
    nBlocksInFlightValidHeaders := 0
    nDownloadingSince := 0
    nStallingSince := 0 }

/-- A transaction, reduced to what the excerpt reads: its hash
(`GetHash()`), the `prevout.hash` of each input (`vin`), and its
serialized size (`GetSerializeSize(tx, SER_NETWORK, CURRENT_VERSION)`). -/
structure CTransaction where
  hash : Uint256
  vin : List Uint256
  serializedSize : Nat
deriving DecidableEq

/-- `COrphanTx { tx, fromPeer }`. -/
structure COrphanTx where
  tx : CTransaction
  fromPeer : NodeId
deriving DecidableEq

/-- The orphan pool: `mapOrphanTransactions` and its reverse index
`mapOrphanTransactionsByPrev` (`std::map<uint256, std::set<uint256>>`,
sets modelled as `Finset`). -/
structure OrphanState where
  mapOrphanTransactions : List (Uint256 × COrphanTx)
  mapOrphanTransactionsByPrev : List (Uint256 × Finset Uint256)
deriving DecidableEq

/-- The global protocol-core state guarded by `cs_main`: the peer
registry, the in-flight index (the iterator stored in
`mapBlocksInFlight` is represented by the owning peer's id; the entry it
designates is the first list element with that hash), the block-source
map, the three global counters and the orphan pool. -/
structure NetState where
  mapNodeState : List (NodeId × CNodeState)
  mapBlocksInFlight : List (Uint256 × NodeId)
  mapBlockSource : List (Uint256 × (NodeId × Bool))
  nPreferredDownload : Int
  nPeersWithValidatedDownloads : Int
  nSyncStarted : Int
  orphans : OrphanState
deriving DecidableEq

/-- `State(nodeid)`: `mapNodeState.find`, null when absent. -/
def State (nodeid : NodeId) (s : NetState) : Option CNodeState :=
  mapFind nodeid s.mapNodeState

/-! ## Block download scheduler: in-flight table -/


/-- The mutation `MarkBlockAsReceived` performs once the in-flight entry
(`hash ↦ nodeid`), the owning peer's state and the designated list entry
`qb` have been located: decrement the valid-headers count (and, when the
last validated in-flight block of this peer was received, the global
counter), refresh `nDownloadingSince` when the queue head was received,
erase the list entry and the index entry. -/
def markReceivedUpdate (now : Int) (hash : Uint256) (nodeid : NodeId)
    (state : CNodeState) (qb : QueuedBlock) (s : NetState) : NetState :=
  let newValidHeaders :=
    state.nBlocksInFlightValidHeaders - (if qb.fValidatedHeaders then 1 else 0)
  let isHead :=
    match state.vBlocksInFlight with
    | [] => false
    | q :: _ => decide (q.hash = hash)
  let state' : CNodeState :=
    { state with
      nBlocksInFlightValidHeaders := newValidHeaders
      nDownloadingSince :=
        if isHead then max state.nDownloadingSince now
        else state.nDownloadingSince
      vBlocksInFlight :=
        eraseFirst (fun qb => decide (qb.hash = hash)) state.vBlocksInFlight
      nBlocksInFlight := state.nBlocksInFlight - 1
      nStallingSince := 0 }
  { s with
    mapNodeState := mapSet nodeid state' s.mapNodeState
    mapBlocksInFlight := mapErase hash s.mapBlocksInFlight
    nPeersWithValidatedDownloads :=
      s.nPeersWithValidatedDownloads -
        (if newValidHeaders = 0 ∧ qb.fValidatedHeaders then 1 else 0) }

/-- `MarkBlockAsReceived(hash)`.  `now` stands for `GetTimeMicros()`.
Returns the C++ return value together with the new state.  The two inner
fallback branches are unreachable in well-formed states (the source
dereferences `State(...)` and the stored list iterator without checks);
they are modelled as erasing the index entry and leaving the rest of the
state unchanged. -/
def MarkBlockAsReceived (now : Int) (hash : Uint256) (s : NetState) :
    Bool × NetState :=
  match mapFind hash s.mapBlocksInFlight with
  | none => (false, s)
  | some nodeid =>
    match mapFind nodeid s.mapNodeState with
    | none =>
      (true, { s with mapBlocksInFlight := mapErase hash s.mapBlocksInFlight })
    | some state =>
      match findFirst (fun qb => decide (qb.hash = hash)) state.vBlocksInFlight with
      | none =>
        (true, { s with mapBlocksInFlight := mapErase hash s.mapBlocksInFlight })
      | some qb => (true, markReceivedUpdate now hash nodeid state qb s)

/-- The mutation `MarkBlockAsInFlight` performs after the prior entry for
`hash` has been released: append the new entry at the tail of the peer's
list, bump the counters, start the download timer on the first in-flight
block, bump the global counter on the first validated in-flight block,
and (re)insert the index entry. -/
def markInFlightUpdate (now : Int) (nodeid : NodeId) (hash : Uint256)
    (pindex : Option Nat) (state : CNodeState) (s1 : NetState) : NetState :=
  let newentry : QueuedBlock := ⟨hash, pindex, pindex.isSome⟩
  let state' : CNodeState :=
    { state with
      vBlocksInFlight := state.vBlocksInFlight ++ [newentry]
      nBlocksInFlight := state.nBlocksInFlight + 1
      nBlocksInFlightValidHeaders :=
        state.nBlocksInFlightValidHeaders +
          (if newentry.fValidatedHeaders then 1 else 0)
      nDownloadingSince :=
        if state.nBlocksInFlight + 1 = 1 then now
        else state.nDownloadingSince }
  { s1 with
    mapNodeState := mapSet nodeid state' s1.mapNodeState
    nPeersWithValidatedDownloads :=
      s1.nPeersWithValidatedDownloads +
        (if state.nBlocksInFlightValidHeaders +
              (if newentry.fValidatedHeaders then 1 else 0) = 1
            ∧ pindex.isSome then 1 else 0)
    mapBlocksInFlight := mapSet hash nodeid s1.mapBlocksInFlight }

/-- `MarkBlockAsInFlight(nodeid, hash, consensusParams, pindex)`.  `now`
stands for `GetTimeMicros()`.  The source `assert(state != NULL)`; the
unregistered-peer case is modelled as a no-op. -/
def MarkBlockAsInFlight (now : Int) (nodeid : NodeId) (hash : Uint256)
    (pindex : Option Nat) (s : NetState) : NetState :=
  match mapFind nodeid s.mapNodeState with
  | none => s
  | some _ =>
    -- Make sure it's not listed somewhere already.
    let s1 := (MarkBlockAsReceived now hash s).2
    match mapFind nodeid s1.mapNodeState with
    | none => s1  -- unreachable: MarkBlockAsReceived keeps the registry's keys
    | some state => markInFlightUpdate now nodeid hash pindex state s1

/-! ## DoS handling -/

/-- `Misbehaving(pnode, howmuch, reason)`.  `banscore` stands for
`gArgs.GetArg("-banscore", DEFAULT_BANSCORE_THRESHOLD)`; the `reason`
argument is only logged. -/
def Misbehaving (banscore : Int) (pnode : NodeId) (howmuch : Int)
    (reason : String) (s : NetState) : NetState :=
  if howmuch = 0 then s
  else
    match mapFind pnode s.mapNodeState with
    | none => s
    | some state =>
      let newScore := state.nMisbehavior + howmuch
      let state' : CNodeState :=
        { state with
          nMisbehavior := newScore
          fShouldBan :=
            if newScore ≥ banscore ∧ newScore - howmuch < banscore then true
            else state.fShouldBan }
      let _ := reason
      { s with mapNodeState := mapSet pnode state' s.mapNodeState }

/-! ## Invariant 3: the peers-with-validated-downloads counter -/

/-- `|{p : p.in_flight_validated_count > 0}|`. -/
def countValidatedPeers (m : List (NodeId × CNodeState)) : Nat :=
  countP (fun st => decide (0 < st.nBlocksInFlightValidHeaders)) m

/-- Spec invariant 3:
`peers_with_validated_downloads == |{p : p.in_flight_validated_count > 0}|`. -/
def ValidatedDownloadsInvariant (s : NetState) : Prop :=
  s.nPeersWithValidatedDownloads = (countValidatedPeers s.mapNodeState : Int)

theorem countValidatedPeers_mapSet {m : List (NodeId × CNodeState)} {k : NodeId}
    {st : CNodeState} (h : mapFind k m = some st) (st' : CNodeState) :
    (countValidatedPeers (mapSet k st' m) : Int)
        + (if 0 < st.nBlocksInFlightValidHeaders then 1 else 0)
      = (countValidatedPeers m : Int)
        + (if 0 < st'.nBlocksInFlightValidHeaders then 1 else 0) := by
  have hc := countP_mapSet h (fun t => decide (0 < t.nBlocksInFlightValidHeaders)) st'
  simp only [decide_eq_true_eq] at hc
  unfold countValidatedPeers
  split_ifs at hc ⊢ <;> exact_mod_cast hc

theorem markReceivedUpdate_validated {now : Int} {hash : Uint256}
    {nodeid : NodeId} {state : CNodeState} {qb : QueuedBlock} {s : NetState}
    (hS : mapFind nodeid s.mapNodeState = some state)
    (h : ValidatedDownloadsInvariant s) :
    ValidatedDownloadsInvariant (markReceivedUpdate now hash nodeid state qb s) := by
  unfold ValidatedDownloadsInvariant at h ⊢
  unfold markReceivedUpdate
  dsimp only
  have hms := countValidatedPeers_mapSet hS
    { state with
      nBlocksInFlightValidHeaders :=
        state.nBlocksInFlightValidHeaders -
          (if qb.fValidatedHeaders then 1 else 0)
      nDownloadingSince :=
        if (match state.vBlocksInFlight with
            | [] => false
            | q :: _ => decide (q.hash = hash)) then max state.nDownloadingSince now
        else state.nDownloadingSince
      vBlocksInFlight :=
        eraseFirst (fun qb => decide (qb.hash = hash)) state.vBlocksInFlight
      nBlocksInFlight := state.nBlocksInFlight - 1
      nStallingSince := 0 }
  dsimp only at hms
  by_cases hv : qb.fValidatedHeaders <;>
    simp only [hv, if_true, if_false, and_true, and_false,
      Bool.false_eq_true, if_true_left, if_false_left] at hms ⊢ <;>
    split_ifs at hms ⊢ <;> omega

theorem markReceived_validated (now : Int) (hash : Uint256) (s : NetState)
    (h : ValidatedDownloadsInvariant s) :
    ValidatedDownloadsInvariant (MarkBlockAsReceived now hash s).2 := by
  unfold MarkBlockAsReceived
  cases hB : mapFind hash s.mapBlocksInFlight with
  | none => exact h
  | some nodeid =>
    dsimp only
    cases hS : mapFind nodeid s.mapNodeState with
    | none => simp only [ValidatedDownloadsInvariant] at h ⊢; exact h
    | some state =>
      dsimp only
      cases hF : findFirst (fun qb => decide (qb.hash = hash)) state.vBlocksInFlight with
      | none => simp only [ValidatedDownloadsInvariant] at h ⊢; exact h
      | some qb =>
        dsimp only
        exact markReceivedUpdate_validated hS h

theorem markInFlightUpdate_validated {now : Int} {nodeid : NodeId}
    {hash : Uint256} {pindex : Option Nat} {state : CNodeState} {s1 : NetState}
    (hS : mapFind nodeid s1.mapNodeState = some state)
    (h : ValidatedDownloadsInvariant s1) :
    ValidatedDownloadsInvariant (markInFlightUpdate now nodeid hash pindex state s1) := by
  unfold ValidatedDownloadsInvariant at h ⊢
  unfold markInFlightUpdate
  dsimp only
  have hms := countValidatedPeers_mapSet hS
    { state with
      vBlocksInFlight := state.vBlocksInFlight ++ [⟨hash, pindex, pindex.isSome⟩]
      nBlocksInFlight := state.nBlocksInFlight + 1
      nBlocksInFlightValidHeaders :=
        state.nBlocksInFlightValidHeaders +
          (if (⟨hash, pindex, pindex.isSome⟩ : QueuedBlock).fValidatedHeaders
           then 1 else 0)
      nDownloadingSince :=
        if state.nBlocksInFlight + 1 = 1 then now
        else state.nDownloadingSince }
  dsimp only at hms
  by_cases hpi : pindex.isSome <;>
    simp only [hpi, if_true, if_false, and_true, and_false,
      Bool.false_eq_true, if_true_left, if_false_left] at hms ⊢ <;>
    split_ifs at hms ⊢ <;> omega

theorem markInFlight_validated (now : Int) (nodeid : NodeId) (hash : Uint256)
    (pindex : Option Nat) (s : NetState) (h : ValidatedDownloadsInvariant s) :
    ValidatedDownloadsInvariant (MarkBlockAsInFlight now nodeid hash pindex s) := by
  unfold MarkBlockAsInFlight
  cases hS0 : mapFind nodeid s.mapNodeState with
  | none => exact h
  | some state0 =>
    dsimp only
    have h1 := markReceived_validated now hash s h
    cases hS1 : mapFind nodeid (MarkBlockAsReceived now hash s).2.mapNodeState with
    | none => exact h1
    | some state =>
      dsimp only
      exact markInFlightUpdate_validated hS1 h1

section AssocList2

variable {κ β : Type} [DecidableEq κ]

theorem mapErase_append_singleton {k : κ} {m : List (κ × β)}
    (h : mapFind k m = none) (v : β) : mapErase k (m ++ [(k, v)]) = m := by
  induction m with
  | nil => simp [mapErase]
  | cons x xs ih =>
    simp only [mapFind] at h
    split at h
    · cases h
    · next hx =>
      simp only [List.cons_append, mapErase, hx, if_false]
      exact congrArg (x :: ·) (ih h)

end AssocList2

/-! ## Example states used by the concrete witnesses -/

/-- A peer with one validated in-flight block (hash 5). -/
def exPeerState : CNodeState :=
  { initialNodeState with
    vBlocksInFlight := [⟨5, some 0, true⟩]
    nBlocksInFlight := 1
    nBlocksInFlightValidHeaders := 1 }

/-- One peer (id 1) downloading block 5; the counters match. -/
def exState1 : NetState :=
  { mapNodeState := [(1, exPeerState)]
    mapBlocksInFlight := [(5, 1)]
    mapBlockSource := []
    nPreferredDownload := 0
    nPeersWithValidatedDownloads := 1
    nSyncStarted := 0
    orphans := ⟨[], []⟩ }

/-- Two peers: peer 1 is downloading block 5, peer 2 is idle. -/
def exState2 : NetState :=
  { mapNodeState := [(1, exPeerState), (2, initialNodeState)]
    mapBlocksInFlight := [(5, 1)]
    mapBlockSource := []
    nPreferredDownload := 0
    nPeersWithValidatedDownloads := 1
    nSyncStarted := 0
    orphans := ⟨[], []⟩ }

/-- C1: the global counter `nPeersWithValidatedDownloads` always equals
the number of peers whose count of in-flight blocks with validated
headers is positive: for every state satisfying this equality, executing
`MarkBlockAsInFlight` (with any peer, hash, and optional header index) or
`MarkBlockAsReceived` (with any hash) yields a state that still
satisfies it. -/
theorem validated_downloads_counter_preserved (s : NetState)
    (h : ValidatedDownloadsInvariant s) (now now' : Int) (nodeid : NodeId)
    (hash hash' : Uint256) (pindex : Option Nat) :
    ValidatedDownloadsInvariant (MarkBlockAsInFlight now nodeid hash pindex s)
      ∧ ValidatedDownloadsInvariant (MarkBlockAsReceived now' hash' s).2 :=
  ⟨markInFlight_validated now nodeid hash pindex s h,
   markReceived_validated now' hash' s h⟩

theorem validated_downloads_counter_preserved_witness :
    ValidatedDownloadsInvariant (MarkBlockAsInFlight 10 1 7 (some 2) exState1)
      ∧ ValidatedDownloadsInvariant (MarkBlockAsReceived 11 5 exState1).2 :=
  validated_downloads_counter_preserved exState1
    (by unfold ValidatedDownloadsInvariant; decide) 10 11 1 7 5 (some 2)

/-- C3 (amended): provided `hash` is not already a key of the in-flight
index, `MarkBlockAsInFlight(peer, hash)` followed by
`MarkBlockAsReceived(hash)` leaves `mapBlocksInFlight` equal to what it
was before the pair of calls.  (If `hash` is already in flight, the pair
of calls removes the pre-existing entry; see the counterexample.) -/
theorem inflight_then_received_restores_index (s : NetState) (now now' : Int)
    (nodeid : NodeId) (hash : Uint256) (pindex : Option Nat)
    (h : mapFind hash s.mapBlocksInFlight = none) :
    ((MarkBlockAsReceived now' hash
        (MarkBlockAsInFlight now nodeid hash pindex s)).2).mapBlocksInFlight
      = s.mapBlocksInFlight := by
  unfold MarkBlockAsInFlight
  cases hS : mapFind nodeid s.mapNodeState with
  | none =>
    dsimp only
    unfold MarkBlockAsReceived
    rw [h]
  | some state0 =>
    dsimp only
    have hs1 : MarkBlockAsReceived now hash s = (false, s) := by
      unfold MarkBlockAsReceived; rw [h]
    rw [hs1]
    dsimp only
    rw [hS]
    dsimp only
    unfold markInFlightUpdate
    dsimp only
    unfold MarkBlockAsReceived
    dsimp only
    rw [mapSet_of_none h]
    have hfind : mapFind hash (s.mapBlocksInFlight ++ [(hash, nodeid)])
        = some nodeid := by
      rw [mapFind_append, h]
      simp [mapFind]
    rw [hfind]
    dsimp only
    rw [mapFind_mapSet_self]
    dsimp only
    cases hF : findFirst (fun qb => decide (qb.hash = hash))
        (state0.vBlocksInFlight ++ [⟨hash, pindex, pindex.isSome⟩]) with
    | none =>
      dsimp only
      exact mapErase_append_singleton h nodeid
    | some qb =>
      dsimp only
      unfold markReceivedUpdate
      dsimp only
      exact mapErase_append_singleton h nodeid

/-- C3 counterexample: with block 5 already in flight from peer 1,
`MarkBlockAsInFlight(2, 5)` followed by `MarkBlockAsReceived(5)` empties
the in-flight index instead of restoring the original entry `(5 ↦ 1)`. -/
theorem inflight_then_received_counterexample :
    ¬ (((MarkBlockAsReceived 0 5
          (MarkBlockAsInFlight 0 2 5 none exState2)).2).mapBlocksInFlight
        = exState2.mapBlocksInFlight) := by
  decide

theorem inflight_then_received_restores_index_witness :
    mapFind 7 exState2.mapBlocksInFlight = none
      ∧ ((MarkBlockAsReceived 1 7
            (MarkBlockAsInFlight 0 2 7 (some 3) exState2)).2).mapBlocksInFlight
          = exState2.mapBlocksInFlight :=
  ⟨by decide,
   inflight_then_received_restores_index exState2 0 1 2 7 (some 3) (by decide)⟩

/-- C4: for a registered peer and positive `howmuch`, `Misbehaving` adds
`howmuch` to the misbehavior score, and the should-ban flag afterwards
holds iff it already held or this call crossed the `banscore` threshold
(new total ≥ banscore while previous total < banscore); in particular
landing exactly on the threshold sets it, and a call starting at or above
the threshold does not set it anew. -/
theorem misbehaving_adds_score_and_crosses_threshold (banscore : Int)
    (pnode : NodeId) (howmuch : Int) (reason : String) (s : NetState)
    (st : CNodeState) (hreg : mapFind pnode s.mapNodeState = some st)
    (hpos : 0 < howmuch) :
    ∃ st',
      mapFind pnode (Misbehaving banscore pnode howmuch reason s).mapNodeState
          = some st'
      ∧ st'.nMisbehavior = st.nMisbehavior + howmuch
      ∧ (st'.fShouldBan = true ↔
          (st.fShouldBan = true ∨
            (banscore ≤ st.nMisbehavior + howmuch
              ∧ st.nMisbehavior < banscore)))
      ∧ st'.vBlocksInFlight = st.vBlocksInFlight
      ∧ st'.nBlocksInFlight = st.nBlocksInFlight
      ∧ st'.nBlocksInFlightValidHeaders = st.nBlocksInFlightValidHeaders
      ∧ st'.fPreferredDownload = st.fPreferredDownload
      ∧ st'.fSyncStarted = st.fSyncStarted
      ∧ st'.fCurrentlyConnected = st.fCurrentlyConnected := by
  unfold Misbehaving
  rw [if_neg (by omega : ¬ howmuch = 0), hreg]
  dsimp only
  refine ⟨_, mapFind_mapSet_self _ _ _, rfl, ?_, rfl, rfl, rfl, rfl, rfl, rfl⟩
  dsimp only
  constructor
  · intro hb
    split at hb
    · next hc => right; exact ⟨hc.1, by omega⟩
    · left; exact hb
  · intro hb
    rcases hb with hb | hb
    · split
      · rfl
      · exact hb
    · rw [if_pos ⟨hb.1, by omega⟩]

theorem misbehaving_adds_score_witness :
    ∃ st',
      mapFind 1 (Misbehaving 100 1 1 "test" exState1).mapNodeState = some st'
      ∧ st'.nMisbehavior = exPeerState.nMisbehavior + 1
      ∧ (st'.fShouldBan = true ↔
          (exPeerState.fShouldBan = true ∨
            (100 ≤ exPeerState.nMisbehavior + 1
              ∧ exPeerState.nMisbehavior < 100)))
      ∧ st'.vBlocksInFlight = exPeerState.vBlocksInFlight
      ∧ st'.nBlocksInFlight = exPeerState.nBlocksInFlight
      ∧ st'.nBlocksInFlightValidHeaders = exPeerState.nBlocksInFlightValidHeaders
      ∧ st'.fPreferredDownload = exPeerState.fPreferredDownload
      ∧ st'.fSyncStarted = exPeerState.fSyncStarted
      ∧ st'.fCurrentlyConnected = exPeerState.fCurrentlyConnected :=
  misbehaving_adds_score_and_crosses_threshold 100 1 1 "test" exState1
    exPeerState (by decide) (by decide)

section AssocList3

variable {κ β γ : Type} [DecidableEq κ] [DecidableEq γ]

theorem proj_ne_of_mem_eraseFirst {f : α → γ} {l : List α} {b : γ}
    (hnd : (l.map f).Nodup) {a : α}
    (hf : findFirst (fun x => decide (f x = b)) l = some a) :
    ∀ x ∈ eraseFirst (fun x => decide (f x = b)) l, f x ≠ b := by
  induction l with
  | nil => intro x hx; cases hx
  | cons y ys ih =>
    simp only [List.map_cons, List.nodup_cons] at hnd
    intro x hx
    simp only [findFirst] at hf
    simp only [eraseFirst] at hx
    by_cases hy : f y = b
    · simp only [hy, decide_True, if_true] at hx
      intro hc
      exact hnd.1 (hy ▸ hc ▸ List.mem_map_of_mem f hx)
    · simp only [hy, decide_False, Bool.false_eq_true, if_false] at hf hx
      rcases List.mem_cons.mp hx with rfl | hx'
      · exact hy
      · exact ih hnd.2 hf x hx'

theorem mem_mapSet_cases {m : List (κ × β)} (hnd : (m.map Prod.fst).Nodup)
    {k : κ} {v v0 : β} {kv : κ × β} (hfound : mapFind k m = some v0)
    (h : kv ∈ mapSet k v m) :
    (kv.1 = k ∧ kv.2 = v) ∨ (kv ∈ m ∧ kv.1 ≠ k) := by
  have hnd' : ((mapSet k v m).map Prod.fst).Nodup := by
    rw [keys_mapSet_of_some hfound]; exact hnd
  have hself := mapFind_of_mem_nodup hnd' h
  by_cases hk : kv.1 = k
  · left
    refine ⟨hk, ?_⟩
    rw [hk, mapFind_mapSet_self] at hself
    exact (Option.some.inj hself).symm
  · right
    rw [mapFind_mapSet_ne hk] at hself
    exact ⟨mapFind_mem hself, hk⟩

theorem mapFind_ne_none_of_key_mem {m : List (κ × β)} {k : κ}
    (h : k ∈ m.map Prod.fst) : mapFind k m ≠ none := by
  rcases List.mem_map.mp h with ⟨kv, hkv, rfl⟩
  exact mapFind_isSome_of_mem hkv

end AssocList3

/-! ## Orphan pool -/

/-- Reading `mapOrphanTransactionsByPrev[p]` without inserting: the stored
set, or the empty set if the key is absent. -/
def byPrevGet (p : Uint256) (l : List (Uint256 × Finset Uint256)) : Finset Uint256 :=
  (mapFind p l).getD ∅

/-- `AddOrphanTx(tx, peer)`.  Rejects a duplicate hash or a transaction
serialized to more than 5000 bytes; otherwise stores the orphan and adds
its hash to the reverse-index set of each input's `prevout.hash`. -/
def AddOrphanTx (tx : CTransaction) (peer : NodeId) (s : OrphanState) :
    Bool × OrphanState :=
  if (mapFind tx.hash s.mapOrphanTransactions).isSome then (false, s)
  else if 5000 < tx.serializedSize then (false, s)
  else
    (true,
      { mapOrphanTransactions :=
          mapSet tx.hash ⟨tx, peer⟩ s.mapOrphanTransactions
        mapOrphanTransactionsByPrev :=
          tx.vin.foldl
            (fun acc prevHash =>
              mapSet prevHash (insert tx.hash (byPrevGet prevHash acc)) acc)
            s.mapOrphanTransactionsByPrev })

/-- `EraseOrphanTx(hash)`: remove the orphan and clean its reverse-index
entries, dropping a reverse-index key whose set becomes empty. -/
def EraseOrphanTx (hash : Uint256) (s : OrphanState) : OrphanState :=
  match mapFind hash s.mapOrphanTransactions with
  | none => s
  | some orphan =>
    { mapOrphanTransactions := mapErase hash s.mapOrphanTransactions
      mapOrphanTransactionsByPrev :=
        orphan.tx.vin.foldl
          (fun acc prevHash =>
            match mapFind prevHash acc with
            | none => acc
            | some set0 =>
              let set1 := set0.erase hash
              if set1 = ∅ then mapErase prevHash acc
              else mapSet prevHash set1 acc)
          s.mapOrphanTransactionsByPrev }

/-- `EraseOrphansFor(peer)`: erase every orphan sourced from `peer`
(the iteration is over a snapshot of the entries, faithful to the
increment-before-erase loop of the source). -/
def EraseOrphansFor (peer : NodeId) (s : OrphanState) : OrphanState :=
  s.mapOrphanTransactions.foldl
    (fun acc kv =>
      if kv.2.fromPeer = peer then EraseOrphanTx kv.2.tx.hash acc else acc)
    s

/-! ## Peer registry -/

/-- `InitializeNode`: `mapNodeState.emplace_hint(...)` (no effect when the
id is already registered).  The outbound `PushNodeVersion` call only
talks to the transport and is not part of the registry state. -/
def InitializeNode (nodeid : NodeId) (s : NetState) : NetState :=
  if (mapFind nodeid s.mapNodeState).isSome then s
  else
    { s with mapNodeState := s.mapNodeState ++ [(nodeid, initialNodeState)] }

/-- `FinalizeNode(nodeid)`: returns `fUpdateConnectionTime` and the new
state.  Decrements the sync/preferred/validated counters, erases the
peer's in-flight entries, block-source entries and orphans, and removes
the registry entry.  The source dereferences `State(nodeid)` without a
null check; the unregistered case is modelled as a no-op. -/
def FinalizeNode (nodeid : NodeId) (s : NetState) : Bool × NetState :=
  match mapFind nodeid s.mapNodeState with
  | none => (false, s)
  | some state =>
    (decide (state.nMisbehavior = 0) && state.fCurrentlyConnected,
      { s with
        nSyncStarted :=
          s.nSyncStarted - (if state.fSyncStarted then 1 else 0)
        mapBlocksInFlight :=
          state.vBlocksInFlight.foldl
            (fun b e => mapErase e.hash b) s.mapBlocksInFlight
        mapBlockSource :=
          s.mapBlockSource.filter (fun kv => decide (kv.2.1 ≠ nodeid))
        orphans := EraseOrphansFor nodeid s.orphans
        nPreferredDownload :=
          s.nPreferredDownload - (if state.fPreferredDownload then 1 else 0)
        nPeersWithValidatedDownloads :=
          s.nPeersWithValidatedDownloads -
            (if state.nBlocksInFlightValidHeaders ≠ 0 then 1 else 0)
        mapNodeState := mapErase nodeid s.mapNodeState })

/-- `UpdatePreferredDownload(node, state)`: recompute the peer's
preferred-download flag from the `CNode` flags and adjust the global
counter. -/
def UpdatePreferredDownload (fInbound fWhitelisted fOneShot fClient : Bool)
    (nodeid : NodeId) (s : NetState) : NetState :=
  match mapFind nodeid s.mapNodeState with
  | none => s
  | some state =>
    let newPref := (!fInbound || fWhitelisted) && !fOneShot && !fClient
    { s with
      nPreferredDownload :=
        s.nPreferredDownload - (if state.fPreferredDownload then 1 else 0)
          + (if newPref then 1 else 0)
      mapNodeState :=
        mapSet nodeid { state with fPreferredDownload := newPref }
          s.mapNodeState }

/-! ## Well-formedness of the protocol-core state

The conjunction of spec invariants 1–4 (restricted to the fields the
embedding carries), used to characterise reachable states. -/

/-- `|{p : p.preferred_download}|`. -/
def countPreferredPeers (m : List (NodeId × CNodeState)) : Nat :=
  countP (fun st => st.fPreferredDownload) m

structure WF (s : NetState) : Prop where
  nodesNodup : (s.mapNodeState.map Prod.fst).Nodup
  bifNodup : (s.mapBlocksInFlight.map Prod.fst).Nodup
  peerValid : ∀ kv ∈ s.mapNodeState,
    kv.2.nBlocksInFlightValidHeaders
      = ((kv.2.vBlocksInFlight.filter
            (fun qb => qb.fValidatedHeaders)).length : Int)
  peerHashNodup : ∀ kv ∈ s.mapNodeState,
    (kv.2.vBlocksInFlight.map QueuedBlock.hash).Nodup
  bifToPeer : ∀ hn ∈ s.mapBlocksInFlight, ∃ st,
    mapFind hn.2 s.mapNodeState = some st
      ∧ hn.1 ∈ st.vBlocksInFlight.map QueuedBlock.hash
  peerToBif : ∀ kv ∈ s.mapNodeState, ∀ qb ∈ kv.2.vBlocksInFlight,
    mapFind qb.hash s.mapBlocksInFlight = some kv.1
  prefCount : s.nPreferredDownload = (countPreferredPeers s.mapNodeState : Int)
  validCount : ValidatedDownloadsInvariant s

theorem countPreferredPeers_mapSet_eq {m : List (NodeId × CNodeState)}
    {k : NodeId} {st : CNodeState} (h : mapFind k m = some st)
    {st' : CNodeState} (hp : st'.fPreferredDownload = st.fPreferredDownload) :
    countPreferredPeers (mapSet k st' m) = countPreferredPeers m := by
  have hc := countP_mapSet h (fun t => t.fPreferredDownload) st'
  unfold countPreferredPeers
  rw [hp] at hc
  omega

theorem WF_received_generic {hash : Uint256} {nodeid : NodeId}
    {state st' : CNodeState} {qb : QueuedBlock} {s : NetState} (hwf : WF s)
    (hB : mapFind hash s.mapBlocksInFlight = some nodeid)
    (hS : mapFind nodeid s.mapNodeState = some state)
    (hF : findFirst (fun q => decide (q.hash = hash)) state.vBlocksInFlight
            = some qb)
    (hv : st'.vBlocksInFlight
            = eraseFirst (fun q => decide (q.hash = hash)) state.vBlocksInFlight)
    (hvh : st'.nBlocksInFlightValidHeaders
            = state.nBlocksInFlightValidHeaders
              - (if qb.fValidatedHeaders then 1 else 0))
    (hpd : st'.fPreferredDownload = state.fPreferredDownload)
    {d : Int}
    (hd : d = (if st'.nBlocksInFlightValidHeaders = 0 ∧ qb.fValidatedHeaders
               then 1 else 0)) :
    WF { s with
      mapNodeState := mapSet nodeid st' s.mapNodeState
      mapBlocksInFlight := mapErase hash s.mapBlocksInFlight
      nPeersWithValidatedDownloads := s.nPeersWithValidatedDownloads - d } := by
  have hqbh : qb.hash = hash := by simpa using findFirst_prop hF
  have hmem : (nodeid, state) ∈ s.mapNodeState := mapFind_mem hS
  have hLnd : (state.vBlocksInFlight.map QueuedBlock.hash).Nodup :=
    hwf.peerHashNodup _ hmem
  have hNoHash :
      ∀ x ∈ eraseFirst (fun q => decide (q.hash = hash)) state.vBlocksInFlight,
        x.hash ≠ hash :=
    proj_ne_of_mem_eraseFirst (f := QueuedBlock.hash) hLnd hF
  constructor
  case nodesNodup =>
    dsimp only
    rw [keys_mapSet_of_some hS]
    exact hwf.nodesNodup
  case bifNodup =>
    dsimp only
    exact hwf.bifNodup.sublist (keys_mapErase_sublist hash s.mapBlocksInFlight)
  case peerValid =>
    dsimp only
    intro kv hkv
    rcases mem_mapSet_cases hwf.nodesNodup hS hkv with ⟨hk1, hk2⟩ | ⟨hold, _⟩
    · rw [hk2, hvh, hv]
      have hvold := hwf.peerValid _ hmem
      have hfl := filter_length_eraseFirst
        (q := fun qb => qb.fValidatedHeaders) hF
      by_cases hvb : qb.fValidatedHeaders <;>
        simp only [hvb, if_true, if_false, Bool.false_eq_true] at hfl ⊢ <;>
        rw [hvold, hfl] <;> push_cast <;> ring
    · exact hwf.peerValid _ hold
  case peerHashNodup =>
    dsimp only
    intro kv hkv
    rcases mem_mapSet_cases hwf.nodesNodup hS hkv with ⟨hk1, hk2⟩ | ⟨hold, _⟩
    · rw [hk2, hv]
      exact hLnd.sublist ((eraseFirst_sublist _ _).map QueuedBlock.hash)
    · exact hwf.peerHashNodup _ hold
  case bifToPeer =>
    dsimp only
    intro hn hmem'
    have hne : hn.1 ≠ hash := key_ne_of_mem_mapErase hwf.bifNodup hmem'
    rcases hwf.bifToPeer hn (mapErase_subset hmem') with ⟨st0, hst0, hhash0⟩
    by_cases hk : hn.2 = nodeid
    · rw [hk] at hst0
      have hst0' : st0 = state := by
        rw [hst0] at hS; exact Option.some.inj hS
      subst hst0'
      refine ⟨st', by rw [hk, mapFind_mapSet_self], ?_⟩
      rw [hv]
      rcases List.mem_map.mp hhash0 with ⟨qb0, hqb0, hqb0h⟩
      exact List.mem_map.mpr
        ⟨qb0, mem_eraseFirst_of_not hqb0 (by simp [hqb0h, hne]), hqb0h⟩
    · exact ⟨st0, by rw [mapFind_mapSet_ne hk]; exact hst0, hhash0⟩
  case peerToBif =>
    dsimp only
    intro kv hkv qb' hqb'
    rcases mem_mapSet_cases hwf.nodesNodup hS hkv with ⟨hk1, hk2⟩ | ⟨hold, hkne⟩
    · rw [hk2, hv] at hqb'
      have hqbL : qb' ∈ state.vBlocksInFlight := eraseFirst_subset hqb'
      have holdB := hwf.peerToBif _ hmem qb' hqbL
      have hne : qb'.hash ≠ hash := hNoHash qb' (hv ▸ hqb')
      rw [hk1, mapFind_mapErase_ne hne]
      exact holdB
    · have holdB := hwf.peerToBif _ hold qb' hqb'
      have hne : qb'.hash ≠ hash := by
        intro hc
        rw [hc, hB] at holdB
        exact hkne (Option.some.inj holdB).symm
      rw [mapFind_mapErase_ne hne]
      exact holdB
  case prefCount =>
    dsimp only
    rw [countPreferredPeers_mapSet_eq hS hpd]
    exact hwf.prefCount
  case validCount =>
    unfold ValidatedDownloadsInvariant
    dsimp only
    have hms := countValidatedPeers_mapSet hS st'
    have hvc := hwf.validCount
    unfold ValidatedDownloadsInvariant at hvc
    rw [hvh] at hms hd
    by_cases hvb : qb.fValidatedHeaders <;>
      simp only [hvb, if_true, if_false, and_true, and_false,
        Bool.false_eq_true] at hms hd ⊢ <;>
      split_ifs at hms hd ⊢ <;> omega

theorem WF_markReceivedUpdate {now : Int} {hash : Uint256} {nodeid : NodeId}
    {state : CNodeState} {qb : QueuedBlock} {s : NetState} (hwf : WF s)
    (hB : mapFind hash s.mapBlocksInFlight = some nodeid)
    (hS : mapFind nodeid s.mapNodeState = some state)
    (hF : findFirst (fun q => decide (q.hash = hash)) state.vBlocksInFlight
            = some qb) :
    WF (markReceivedUpdate now hash nodeid state qb s) := by
  unfold markReceivedUpdate
  dsimp only
  refine WF_received_generic hwf hB hS hF ?_ ?_ ?_ ?_ <;> rfl

theorem WF_markReceived (now : Int) (hash : Uint256) (s : NetState)
    (hwf : WF s) : WF (MarkBlockAsReceived now hash s).2 := by
  unfold MarkBlockAsReceived
  cases hB : mapFind hash s.mapBlocksInFlight with
  | none => exact hwf
  | some nodeid =>
    dsimp only
    rcases hwf.bifToPeer _ (mapFind_mem hB) with ⟨st0, hst0, hhash0⟩
    have hhash0' : hash ∈ st0.vBlocksInFlight.map QueuedBlock.hash := hhash0
    rw [hst0]
    dsimp only
    have hsome : ∃ a, findFirst (fun qb => decide (qb.hash = hash))
        st0.vBlocksInFlight = some a := by
      rcases List.mem_map.mp hhash0' with ⟨qb0, hqb0, hqb0h⟩
      exact findFirst_isSome_of_mem hqb0 (by simp [hqb0h])
    rcases hsome with ⟨qb, hF⟩
    rw [hF]
    dsimp only
    exact WF_markReceivedUpdate hwf hB hst0 hF

theorem WF_inflight_generic (pindex : Option Nat) {hash : Uint256}
    {nodeid : NodeId} {state st' : CNodeState} {s1 : NetState}
    (hwf : WF s1)
    (hBnone : mapFind hash s1.mapBlocksInFlight = none)
    (hS : mapFind nodeid s1.mapNodeState = some state)
    (hv : st'.vBlocksInFlight
            = state.vBlocksInFlight ++ [⟨hash, pindex, pindex.isSome⟩])
    (hvh : st'.nBlocksInFlightValidHeaders
            = state.nBlocksInFlightValidHeaders
              + (if pindex.isSome then 1 else 0))
    (hpd : st'.fPreferredDownload = state.fPreferredDownload)
    {d : Int}
    (hd : d = (if st'.nBlocksInFlightValidHeaders = 1 ∧ pindex.isSome
               then 1 else 0)) :
    WF { s1 with
      mapNodeState := mapSet nodeid st' s1.mapNodeState
      nPeersWithValidatedDownloads := s1.nPeersWithValidatedDownloads + d
      mapBlocksInFlight := mapSet hash nodeid s1.mapBlocksInFlight } := by
  have hmem : (nodeid, state) ∈ s1.mapNodeState := mapFind_mem hS
  have hLnd : (state.vBlocksInFlight.map QueuedBlock.hash).Nodup :=
    hwf.peerHashNodup _ hmem
  have hkeyB : hash ∉ s1.mapBlocksInFlight.map Prod.fst := by
    intro hc
    exact mapFind_ne_none_of_key_mem hc hBnone
  have hfresh : ∀ kv ∈ s1.mapNodeState, ∀ qb ∈ kv.2.vBlocksInFlight,
      qb.hash ≠ hash := by
    intro kv hkv qb hqb hc
    have := hwf.peerToBif _ hkv qb hqb
    rw [hc, hBnone] at this
    cases this
  have hBset := mapSet_of_none hBnone nodeid
  constructor
  case nodesNodup =>
    dsimp only
    rw [keys_mapSet_of_some hS]
    exact hwf.nodesNodup
  case bifNodup =>
    dsimp only
    rw [hBset, List.map_append]
    simp only [List.nodup_append, List.map_cons, List.map_nil]
    refine ⟨hwf.bifNodup, List.nodup_singleton _, fun a ha hb => ?_⟩
    rw [List.mem_singleton] at hb
    subst hb
    exact hkeyB ha
  case peerValid =>
    dsimp only
    intro kv hkv
    rcases mem_mapSet_cases hwf.nodesNodup hS hkv with ⟨hk1, hk2⟩ | ⟨hold, _⟩
    · rw [hk2, hvh, hv]
      have hvold := hwf.peerValid _ hmem
      rw [hvold, List.filter_append]
      by_cases hpi : pindex.isSome <;>
        simp [List.filter_cons, hpi] <;> push_cast <;> ring
    · exact hwf.peerValid _ hold
  case peerHashNodup =>
    dsimp only
    intro kv hkv
    rcases mem_mapSet_cases hwf.nodesNodup hS hkv with ⟨hk1, hk2⟩ | ⟨hold, _⟩
    · rw [hk2, hv, List.map_append]
      simp only [List.nodup_append, List.map_cons, List.map_nil]
      refine ⟨hLnd, List.nodup_singleton _, fun a ha hb => ?_⟩
      simp only [List.mem_cons, List.not_mem_nil, or_false] at hb
      subst hb
      rcases List.mem_map.mp ha with ⟨qb0, hqb0, hqb0h⟩
      exact hfresh _ hmem qb0 hqb0 hqb0h
    · exact hwf.peerHashNodup _ hold
  case bifToPeer =>
    dsimp only
    intro hn hmem'
    rw [hBset] at hmem'
    rcases List.mem_append.mp hmem' with hold | hnew
    · rcases hwf.bifToPeer hn hold with ⟨st0, hst0, hh0⟩
      by_cases hk : hn.2 = nodeid
      · rw [hk] at hst0
        have hst0' : st0 = state := by
          rw [hst0] at hS; exact Option.some.inj hS
        subst hst0'
        refine ⟨st', by rw [hk, mapFind_mapSet_self], ?_⟩
        rw [hv, List.map_append]
        exact List.mem_append_left _ hh0
      · exact ⟨st0, by rw [mapFind_mapSet_ne hk]; exact hst0, hh0⟩
    · simp only [List.mem_cons, List.not_mem_nil, or_false] at hnew
      subst hnew
      refine ⟨st', by rw [mapFind_mapSet_self], ?_⟩
      rw [hv, List.map_append]
      exact List.mem_append_right _ (by simp)
  case peerToBif =>
    dsimp only
    intro kv hkv qb' hqb'
    rcases mem_mapSet_cases hwf.nodesNodup hS hkv with ⟨hk1, hk2⟩ | ⟨hold, hkne⟩
    · rw [hk2, hv] at hqb'
      rcases List.mem_append.mp hqb' with holdq | hnewq
      · have holdB := hwf.peerToBif _ hmem qb' holdq
        have hne : qb'.hash ≠ hash := hfresh _ hmem qb' holdq
        rw [hk1, hBset, mapFind_append, holdB]
      · simp only [List.mem_cons, List.not_mem_nil, or_false] at hnewq
        subst hnewq
        rw [hk1, hBset, mapFind_append, hBnone]
        simp [mapFind]
    · have holdB := hwf.peerToBif _ hold qb' hqb'
      rw [hBset, mapFind_append, holdB]
  case prefCount =>
    dsimp only
    rw [countPreferredPeers_mapSet_eq hS hpd]
    exact hwf.prefCount
  case validCount =>
    unfold ValidatedDownloadsInvariant
    dsimp only
    have hms := countValidatedPeers_mapSet hS st'
    have hvc := hwf.validCount
    unfold ValidatedDownloadsInvariant at hvc
    rw [hvh] at hms hd
    by_cases hpi : pindex.isSome <;>
      simp only [hpi, if_true, if_false, and_true, and_false,
        Bool.false_eq_true] at hms hd ⊢ <;>
      split_ifs at hms hd ⊢ <;> omega

theorem markReceived_bif_none (now : Int) (hash : Uint256) (s : NetState)
    (hwf : WF s) :
    mapFind hash (MarkBlockAsReceived now hash s).2.mapBlocksInFlight = none := by
  unfold MarkBlockAsReceived
  cases hB : mapFind hash s.mapBlocksInFlight with
  | none => exact hB
  | some nodeid =>
    dsimp only
    rcases hwf.bifToPeer _ (mapFind_mem hB) with ⟨st0, hst0, hhash0⟩
    have hhash0' : hash ∈ st0.vBlocksInFlight.map QueuedBlock.hash := hhash0
    rw [hst0]
    dsimp only
    have hsome : ∃ a, findFirst (fun qb => decide (qb.hash = hash))
        st0.vBlocksInFlight = some a := by
      rcases List.mem_map.mp hhash0' with ⟨qb0, hqb0, hqb0h⟩
      exact findFirst_isSome_of_mem hqb0 (by simp [hqb0h])
    rcases hsome with ⟨qb, hF⟩
    rw [hF]
    unfold markReceivedUpdate
    dsimp only
    exact mapFind_mapErase_self hwf.bifNodup

theorem markReceived_registry_keys (now : Int) (hash : Uint256) (s : NetState)
    (k : NodeId) :
    (mapFind k (MarkBlockAsReceived now hash s).2.mapNodeState).isSome
      = (mapFind k s.mapNodeState).isSome := by
  unfold MarkBlockAsReceived
  cases hB : mapFind hash s.mapBlocksInFlight with
  | none => rfl
  | some nodeid =>
    dsimp only
    cases hS : mapFind nodeid s.mapNodeState with
    | none => rfl
    | some state =>
      dsimp only
      cases hF : findFirst (fun qb => decide (qb.hash = hash))
          state.vBlocksInFlight with
      | none => rfl
      | some qb =>
        unfold markReceivedUpdate
        dsimp only
        by_cases hk : k = nodeid
        · rw [hk, mapFind_mapSet_self, hS]
          rfl
        · rw [mapFind_mapSet_ne hk]

theorem WF_markInFlight (now : Int) (nodeid : NodeId) (hash : Uint256)
    (pindex : Option Nat) (s : NetState) (hwf : WF s) :
    WF (MarkBlockAsInFlight now nodeid hash pindex s) := by
  unfold MarkBlockAsInFlight
  cases hS0 : mapFind nodeid s.mapNodeState with
  | none => exact hwf
  | some state0 =>
    dsimp only
    have hwf1 := WF_markReceived now hash s hwf
    have hbn := markReceived_bif_none now hash s hwf
    have hkeys := markReceived_registry_keys now hash s nodeid
    rw [hS0] at hkeys
    cases hS1 : mapFind nodeid (MarkBlockAsReceived now hash s).2.mapNodeState with
    | none => rw [hS1] at hkeys; cases hkeys
    | some state =>
      dsimp only
      unfold markInFlightUpdate
      dsimp only
      refine WF_inflight_generic pindex hwf1 hbn hS1 ?_ ?_ ?_ ?_ <;> rfl

theorem WF_set_orphans {s : NetState} (hwf : WF s) (o : OrphanState) :
    WF { s with orphans := o } :=
  ⟨hwf.nodesNodup, hwf.bifNodup, hwf.peerValid, hwf.peerHashNodup,
   hwf.bifToPeer, hwf.peerToBif, hwf.prefCount, hwf.validCount⟩

theorem WF_mapSet_peer_generic {s : NetState} {nodeid : NodeId}
    {state st' : CNodeState} (hwf : WF s)
    (hS : mapFind nodeid s.mapNodeState = some state)
    (hv : st'.vBlocksInFlight = state.vBlocksInFlight)
    (hvh : st'.nBlocksInFlightValidHeaders = state.nBlocksInFlightValidHeaders)
    {npd : Int}
    (hnpd : npd + (if state.fPreferredDownload then 1 else 0)
      = s.nPreferredDownload + (if st'.fPreferredDownload then 1 else 0)) :
    WF { s with
      mapNodeState := mapSet nodeid st' s.mapNodeState
      nPreferredDownload := npd } := by
  have hmem : (nodeid, state) ∈ s.mapNodeState := mapFind_mem hS
  constructor
  case nodesNodup =>
    dsimp only
    rw [keys_mapSet_of_some hS]
    exact hwf.nodesNodup
  case bifNodup => exact hwf.bifNodup
  case peerValid =>
    dsimp only
    intro kv hkv
    rcases mem_mapSet_cases hwf.nodesNodup hS hkv with ⟨hk1, hk2⟩ | ⟨hold, _⟩
    · rw [hk2, hvh, hv]
      exact hwf.peerValid _ hmem
    · exact hwf.peerValid _ hold
  case peerHashNodup =>
    dsimp only
    intro kv hkv
    rcases mem_mapSet_cases hwf.nodesNodup hS hkv with ⟨hk1, hk2⟩ | ⟨hold, _⟩
    · rw [hk2, hv]
      exact hwf.peerHashNodup _ hmem
    · exact hwf.peerHashNodup _ hold
  case bifToPeer =>
    dsimp only
    intro hn hmem'
    rcases hwf.bifToPeer hn hmem' with ⟨st0, hst0, hh0⟩
    by_cases hk : hn.2 = nodeid
    · rw [hk] at hst0
      have hst0' : st0 = state := by
        rw [hst0] at hS; exact Option.some.inj hS
      subst hst0'
      exact ⟨st', by rw [hk, mapFind_mapSet_self], by rw [hv]; exact hh0⟩
    · exact ⟨st0, by rw [mapFind_mapSet_ne hk]; exact hst0, hh0⟩
  case peerToBif =>
    dsimp only
    intro kv hkv qb' hqb'
    rcases mem_mapSet_cases hwf.nodesNodup hS hkv with ⟨hk1, hk2⟩ | ⟨hold, _⟩
    · rw [hk2, hv] at hqb'
      rw [hk1]
      exact hwf.peerToBif _ hmem qb' hqb'
    · exact hwf.peerToBif _ hold qb' hqb'
  case prefCount =>
    dsimp only
    have hms := countP_mapSet hS (fun t => t.fPreferredDownload) st'
    have hpc := hwf.prefCount
    unfold countPreferredPeers at hpc ⊢
    split_ifs at hms hnpd <;> omega
  case validCount =>
    unfold ValidatedDownloadsInvariant
    dsimp only
    have hms := countValidatedPeers_mapSet hS st'
    have hvc := hwf.validCount
    unfold ValidatedDownloadsInvariant at hvc
    rw [hvh] at hms
    split_ifs at hms <;> omega

theorem WF_initializeNode (nodeid : NodeId) (s : NetState) (hwf : WF s) :
    WF (InitializeNode nodeid s) := by
  unfold InitializeNode
  split
  · exact hwf
  · next hnone =>
    have hnone' : mapFind nodeid s.mapNodeState = none := by
      cases h : mapFind nodeid s.mapNodeState with
      | none => rfl
      | some v => rw [h] at hnone; simp at hnone
    have hnotmem : nodeid ∉ s.mapNodeState.map Prod.fst := by
      intro hc
      exact mapFind_ne_none_of_key_mem hc hnone'
    constructor
    case nodesNodup =>
      dsimp only
      rw [List.map_append]
      simp only [List.nodup_append, List.map_cons, List.map_nil]
      refine ⟨hwf.nodesNodup, List.nodup_singleton _, fun a ha hb => ?_⟩
      rw [List.mem_singleton] at hb
      subst hb
      exact hnotmem ha
    case bifNodup => exact hwf.bifNodup
    case peerValid =>
      dsimp only
      intro kv hkv
      rcases List.mem_append.mp hkv with hold | hnew
      · exact hwf.peerValid _ hold
      · rw [List.mem_singleton] at hnew
        subst hnew
        simp [initialNodeState]
    case peerHashNodup =>
      dsimp only
      intro kv hkv
      rcases List.mem_append.mp hkv with hold | hnew
      · exact hwf.peerHashNodup _ hold
      · rw [List.mem_singleton] at hnew
        subst hnew
        simp [initialNodeState]
    case bifToPeer =>
      dsimp only
      intro hn hmem'
      rcases hwf.bifToPeer hn hmem' with ⟨st0, hst0, hh0⟩
      exact ⟨st0, by rw [mapFind_append, hst0], hh0⟩
    case peerToBif =>
      dsimp only
      intro kv hkv qb' hqb'
      rcases List.mem_append.mp hkv with hold | hnew
      · exact hwf.peerToBif _ hold qb' hqb'
      · rw [List.mem_singleton] at hnew
        subst hnew
        simp [initialNodeState] at hqb'
    case prefCount =>
      dsimp only
      have h1 := hwf.prefCount
      unfold countPreferredPeers at h1 ⊢
      rw [countP_append]
      have h2 : countP (fun st => st.fPreferredDownload)
          [((nodeid : NodeId), initialNodeState)] = 0 := rfl
      rw [h2]
      omega
    case validCount =>
      unfold ValidatedDownloadsInvariant
      dsimp only
      have h1 := hwf.validCount
      unfold ValidatedDownloadsInvariant at h1
      unfold countValidatedPeers at h1 ⊢
      rw [countP_append]
      have h2 : countP (fun st => decide (0 < st.nBlocksInFlightValidHeaders))
          [((nodeid : NodeId), initialNodeState)] = 0 := rfl
      rw [h2]
      omega

theorem WF_misbehaving (banscore : Int) (pnode : NodeId) (howmuch : Int)
    (reason : String) (s : NetState) (hwf : WF s) :
    WF (Misbehaving banscore pnode howmuch reason s) := by
  unfold Misbehaving
  split
  · exact hwf
  cases hS : mapFind pnode s.mapNodeState with
  | none => exact hwf
  | some state =>
    dsimp only
    apply WF_mapSet_peer_generic hwf hS
    · rfl
    · rfl
    · rfl

theorem WF_updatePreferredDownload (fi fw fo fc : Bool) (nodeid : NodeId)
    (s : NetState) (hwf : WF s) :
    WF (UpdatePreferredDownload fi fw fo fc nodeid s) := by
  unfold UpdatePreferredDownload
  cases hS : mapFind nodeid s.mapNodeState with
  | none => exact hwf
  | some state =>
    dsimp only
    apply WF_mapSet_peer_generic hwf hS
    · rfl
    · rfl
    · dsimp only
      split_ifs <;> omega

/-! ## FinalizeNode preserves well-formedness -/

theorem foldl_mapErase_subset {L : List QueuedBlock}
    {B : List (Uint256 × NodeId)} {kv : Uint256 × NodeId}
    (h : kv ∈ L.foldl (fun b e => mapErase e.hash b) B) : kv ∈ B := by
  induction L generalizing B with
  | nil => exact h
  | cons e L ih =>
    simp only [List.foldl_cons] at h
    exact mapErase_subset (ih h)

theorem foldl_mapErase_keys_sublist (L : List QueuedBlock)
    (B : List (Uint256 × NodeId)) :
    ((L.foldl (fun b e => mapErase e.hash b) B).map Prod.fst).Sublist
      (B.map Prod.fst) := by
  induction L generalizing B with
  | nil => exact List.Sublist.refl _
  | cons e L ih =>
    simp only [List.foldl_cons]
    exact (ih (mapErase e.hash B)).trans (keys_mapErase_sublist _ _)

theorem foldl_mapErase_find {L : List QueuedBlock}
    {B : List (Uint256 × NodeId)} (hnd : (B.map Prod.fst).Nodup)
    (h : Uint256) :
    mapFind h (L.foldl (fun b e => mapErase e.hash b) B)
      = if h ∈ L.map QueuedBlock.hash then none else mapFind h B := by
  induction L generalizing B with
  | nil => simp
  | cons e L ih =>
    simp only [List.foldl_cons, List.map_cons, List.mem_cons]
    have hnd1 : ((mapErase e.hash B).map Prod.fst).Nodup :=
      hnd.sublist (keys_mapErase_sublist _ _)
    rw [ih hnd1]
    by_cases hL : h ∈ L.map QueuedBlock.hash
    · simp [hL]
    · by_cases he : h = e.hash
      · subst he
        simp [hL, mapFind_mapErase_self hnd]
      · simp only [hL, if_false, or_false, he, if_neg (fun hc => he hc)]
        exact mapFind_mapErase_ne he B

theorem WF_finalizeNode (nodeid : NodeId) (s : NetState) (hwf : WF s) :
    WF (FinalizeNode nodeid s).2 := by
  unfold FinalizeNode
  cases hS : mapFind nodeid s.mapNodeState with
  | none => exact hwf
  | some state =>
    dsimp only
    have hmem : (nodeid, state) ∈ s.mapNodeState := mapFind_mem hS
    constructor
    case nodesNodup =>
      exact hwf.nodesNodup.sublist (keys_mapErase_sublist _ _)
    case bifNodup =>
      exact hwf.bifNodup.sublist (foldl_mapErase_keys_sublist _ _)
    case peerValid =>
      intro kv hkv
      exact hwf.peerValid _ (mapErase_subset hkv)
    case peerHashNodup =>
      intro kv hkv
      exact hwf.peerHashNodup _ (mapErase_subset hkv)
    case bifToPeer =>
      intro hn hmem'
      have hinB : hn ∈ s.mapBlocksInFlight := foldl_mapErase_subset hmem'
      rcases hwf.bifToPeer hn hinB with ⟨st0, hst0, hh0⟩
      have hkne : hn.2 ≠ nodeid := by
        intro hc
        rw [hc, hS] at hst0
        cases hst0
        have hnone := foldl_mapErase_find (L := state.vBlocksInFlight)
          hwf.bifNodup hn.1
        rw [if_pos hh0] at hnone
        exact mapFind_ne_none_of_key_mem
          (List.mem_map_of_mem Prod.fst hmem') hnone
      exact ⟨st0, by rw [mapFind_mapErase_ne hkne]; exact hst0, hh0⟩
    case peerToBif =>
      intro kv hkv qb' hqb'
      have hkne : kv.1 ≠ nodeid := key_ne_of_mem_mapErase hwf.nodesNodup hkv
      have holdB := hwf.peerToBif _ (mapErase_subset hkv) qb' hqb'
      have hnot : qb'.hash ∉ state.vBlocksInFlight.map QueuedBlock.hash := by
        intro hc
        rcases List.mem_map.mp hc with ⟨qb0, hqb0, hqb0h⟩
        have := hwf.peerToBif _ hmem qb0 hqb0
        rw [hqb0h, holdB] at this
        exact hkne (Option.some.inj this)
      rw [foldl_mapErase_find hwf.bifNodup, if_neg hnot]
      exact holdB
    case prefCount =>
      dsimp only
      have hms := countP_mapErase hS (fun t => t.fPreferredDownload)
      have hpc := hwf.prefCount
      unfold countPreferredPeers at hpc ⊢
      split_ifs at hms ⊢ <;> omega
    case validCount =>
      unfold ValidatedDownloadsInvariant
      dsimp only
      have hms := countP_mapErase hS
        (fun t => decide (0 < t.nBlocksInFlightValidHeaders))
      simp only [decide_eq_true_eq] at hms
      have hvc := hwf.validCount
      unfold ValidatedDownloadsInvariant at hvc
      unfold countValidatedPeers at hvc ⊢
      have hval := hwf.peerValid _ hmem
      dsimp only at hval
      split_ifs at hms ⊢ <;> omega

/-! ## LimitOrphanTxSize -/

/-- Minimum of a list of keys (the embedded order of `std::map`). -/
def listMin : List Nat → Option Nat
  | [] => none
  | x :: xs =>
    match listMin xs with
    | none => some x
    | some y => some (min x y)

theorem listMin_mem {l : List Nat} {a : Nat} (h : listMin l = some a) :
    a ∈ l := by
  induction l generalizing a with
  | nil => cases h
  | cons x xs ih =>
    simp only [listMin] at h
    cases hm : listMin xs with
    | none => rw [hm] at h; cases h; exact List.mem_cons_self _ _
    | some y =>
      rw [hm] at h
      cases h
      rcases min_choice x y with hc | hc <;> rw [hc]
      · exact List.mem_cons_self _ _
      · exact List.mem_cons_of_mem _ (ih hm)

theorem listMin_isSome {l : List Nat} (h : l ≠ []) :
    ∃ a, listMin l = some a := by
  cases l with
  | nil => exact absurd rfl h
  | cons x xs =>
    simp only [listMin]
    cases listMin xs with
    | none => exact ⟨x, rfl⟩
    | some y => exact ⟨min x y, rfl⟩

/-- `mapOrphanTransactions.lower_bound(randomhash)`, falling back to
`begin()` when past the end: the smallest key `≥ randomhash`, or the
smallest key overall.  (This is the key the iterator designates; it does
not depend on the association list's representation order.) -/
def lowerBoundKey (r : Uint256) (m : List (Uint256 × COrphanTx)) :
    Option Uint256 :=
  match listMin ((m.map Prod.fst).filter (fun k => decide (r ≤ k))) with
  | some k => some k
  | none => listMin (m.map Prod.fst)

theorem lowerBoundKey_mem {r : Uint256} {m : List (Uint256 × COrphanTx)}
    {k : Uint256} (h : lowerBoundKey r m = some k) : k ∈ m.map Prod.fst := by
  unfold lowerBoundKey at h
  cases hm : listMin ((m.map Prod.fst).filter (fun k => decide (r ≤ k))) with
  | some k0 =>
    rw [hm] at h
    cases h
    exact List.mem_of_mem_filter (listMin_mem hm)
  | none =>
    rw [hm] at h
    exact listMin_mem h

theorem lowerBoundKey_isSome {r : Uint256} {m : List (Uint256 × COrphanTx)}
    (h : m ≠ []) : ∃ k, lowerBoundKey r m = some k := by
  unfold lowerBoundKey
  cases hm : listMin ((m.map Prod.fst).filter (fun k => decide (r ≤ k))) with
  | some k0 => exact ⟨k0, rfl⟩
  | none =>
    have hk : m.map Prod.fst ≠ [] := by
      intro hc
      exact h (List.map_eq_nil_iff.mp hc)
    rcases listMin_isSome hk with ⟨a, ha⟩
    exact ⟨a, by rw [ha]⟩

theorem eraseOrphanTx_length_lt {k : Uint256} {s : OrphanState}
    (h : mapFind k s.mapOrphanTransactions ≠ none) :
    (EraseOrphanTx k s).mapOrphanTransactions.length
      < s.mapOrphanTransactions.length := by
  unfold EraseOrphanTx
  cases hm : mapFind k s.mapOrphanTransactions with
  | none => exact absurd hm h
  | some orphan =>
    dsimp only
    have := length_mapErase_of_some hm
    omega

/-- `LimitOrphanTxSize(nMaxOrphans)`: evict random orphans until the pool
holds at most `nMaxOrphans`; returns the number evicted.  `rand i` stands
for the `i`-th value of `GetRandHash()`. -/
def LimitOrphanTxSize (rand : Nat → Uint256) (i : Nat) (nMaxOrphans : Nat)
    (s : OrphanState) : Nat × OrphanState :=
  if nMaxOrphans < s.mapOrphanTransactions.length then
    match hk : lowerBoundKey (rand i) s.mapOrphanTransactions with
    | none => (0, s)  -- unreachable: the pool is nonempty here
    | some k =>
      let r := LimitOrphanTxSize rand (i + 1) nMaxOrphans (EraseOrphanTx k s)
      (r.1 + 1, r.2)
  else (0, s)
termination_by s.mapOrphanTransactions.length
decreasing_by
  exact eraseOrphanTx_length_lt
    (mapFind_ne_none_of_key_mem (lowerBoundKey_mem hk))

/-! ## Reachability and the last-peer consistency check -/

/-- The state before any peer connects: everything empty, all counters
zero. -/
def initialState : NetState :=
  { mapNodeState := []
    mapBlocksInFlight := []
    mapBlockSource := []
    nPreferredDownload := 0
    nPeersWithValidatedDownloads := 0
    nSyncStarted := 0
    orphans := ⟨[], []⟩ }

/-- One mutation of the protocol-core state by an embedded operation. -/
inductive Step : NetState → NetState → Prop where
  | initializeNode (nodeid : NodeId) (s : NetState) :
      Step s (InitializeNode nodeid s)
  | finalizeNode (nodeid : NodeId) (s : NetState) :
      Step s (FinalizeNode nodeid s).2
  | markInFlight (now : Int) (nodeid : NodeId) (hash : Uint256)
      (pindex : Option Nat) (s : NetState) :
      Step s (MarkBlockAsInFlight now nodeid hash pindex s)
  | markReceived (now : Int) (hash : Uint256) (s : NetState) :
      Step s (MarkBlockAsReceived now hash s).2
  | misbehaving (banscore : Int) (pnode : NodeId) (howmuch : Int)
      (reason : String) (s : NetState) :
      Step s (Misbehaving banscore pnode howmuch reason s)
  | updatePreferredDownload (fi fw fo fc : Bool) (nodeid : NodeId)
      (s : NetState) :
      Step s (UpdatePreferredDownload fi fw fo fc nodeid s)
  | addOrphan (tx : CTransaction) (peer : NodeId) (s : NetState) :
      Step s { s with orphans := (AddOrphanTx tx peer s.orphans).2 }
  | eraseOrphan (hash : Uint256) (s : NetState) :
      Step s { s with orphans := EraseOrphanTx hash s.orphans }
  | eraseOrphansFor (peer : NodeId) (s : NetState) :
      Step s { s with orphans := EraseOrphansFor peer s.orphans }
  | limitOrphans (rand : Nat → Uint256) (i nMaxOrphans : Nat) (s : NetState) :
      Step s { s with orphans := (LimitOrphanTxSize rand i nMaxOrphans s.orphans).2 }

/-- States reachable from the empty initial state by the embedded
operations. -/
inductive Reachable : NetState → Prop where
  | init : Reachable initialState
  | step {s s' : NetState} : Reachable s → Step s s' → Reachable s'

theorem WF_initialState : WF initialState := by
  constructor <;> simp [initialState, ValidatedDownloadsInvariant,
    countValidatedPeers, countPreferredPeers, countP]

theorem WF_of_step {s s' : NetState} (hwf : WF s) (hstep : Step s s') :
    WF s' := by
  cases hstep with
  | initializeNode nodeid s => exact WF_initializeNode nodeid s hwf
  | finalizeNode nodeid s => exact WF_finalizeNode nodeid s hwf
  | markInFlight now nodeid hash pindex s =>
      exact WF_markInFlight now nodeid hash pindex s hwf
  | markReceived now hash s => exact WF_markReceived now hash s hwf
  | misbehaving banscore pnode howmuch reason s =>
      exact WF_misbehaving banscore pnode howmuch reason s hwf
  | updatePreferredDownload fi fw fo fc nodeid s =>
      exact WF_updatePreferredDownload fi fw fo fc nodeid s hwf
  | addOrphan tx peer s => exact WF_set_orphans hwf _
  | eraseOrphan hash s => exact WF_set_orphans hwf _
  | eraseOrphansFor peer s => exact WF_set_orphans hwf _
  | limitOrphans rand i nMaxOrphans s => exact WF_set_orphans hwf _

theorem WF_of_reachable {s : NetState} (h : Reachable s) : WF s := by
  induction h with
  | init => exact WF_initialState
  | step _ hstep ih => exact WF_of_step ih hstep

/-- C2: for every reachable state, after `FinalizeNode` removes the last
peer (the registry becomes empty), the in-flight index is empty and the
counters `nPreferredDownload` and `nPeersWithValidatedDownloads` are both
zero, so the assertions at the end of `FinalizeNode` never fail. -/
theorem finalize_last_peer_consistency (s : NetState) (p : NodeId)
    (hreach : Reachable s) (hone : s.mapNodeState.map Prod.fst = [p]) :
    (FinalizeNode p s).2.mapNodeState = []
      ∧ (FinalizeNode p s).2.mapBlocksInFlight = []
      ∧ (FinalizeNode p s).2.nPreferredDownload = 0
      ∧ (FinalizeNode p s).2.nPeersWithValidatedDownloads = 0 := by
  have hwf := WF_of_reachable hreach
  obtain ⟨st, hm⟩ : ∃ st, s.mapNodeState = [(p, st)] := by
    cases hm : s.mapNodeState with
    | nil => rw [hm] at hone; cases hone
    | cons kv rest =>
      rw [hm] at hone
      simp only [List.map_cons, List.cons.injEq] at hone
      rcases hone with ⟨h1, h2⟩
      have hrest : rest = [] := List.map_eq_nil_iff.mp h2
      subst hrest
      exact ⟨kv.2, by rw [← h1]⟩
  have hfind : mapFind p s.mapNodeState = some st := by
    rw [hm]; simp [mapFind]
  unfold FinalizeNode
  rw [hfind]
  dsimp only
  have hval := hwf.peerValid (p, st) (by rw [hm]; exact List.mem_cons_self _ _)
  dsimp only at hval
  refine ⟨?_, ?_, ?_, ?_⟩
  · rw [hm]; simp [mapErase]
  · apply List.eq_nil_iff_forall_not_mem.mpr
    intro kv hkv
    have hinB : kv ∈ s.mapBlocksInFlight := foldl_mapErase_subset hkv
    rcases hwf.bifToPeer kv hinB with ⟨st0, hst0, hh0⟩
    have hst0p : st0 = st := by
      rw [hm] at hst0
      simp only [mapFind] at hst0
      split at hst0
      · exact (Option.some.inj hst0).symm
      · cases hst0
    rw [hst0p] at hh0
    have hnone := foldl_mapErase_find (L := st.vBlocksInFlight)
      hwf.bifNodup kv.1
    rw [if_pos hh0] at hnone
    exact mapFind_ne_none_of_key_mem (List.mem_map_of_mem Prod.fst hkv) hnone
  · have hpc := hwf.prefCount
    rw [hm] at hpc
    by_cases hP : st.fPreferredDownload = true
    · have hc : countPreferredPeers [((p : NodeId), st)] = 1 := by
        simp [countPreferredPeers, countP, List.filter_cons, hP]
      rw [hc] at hpc
      rw [if_pos hP]
      omega
    · have hc : countPreferredPeers [((p : NodeId), st)] = 0 := by
        simp [countPreferredPeers, countP, List.filter_cons, hP]
      rw [hc] at hpc
      rw [if_neg hP]
      omega
  · have hvc := hwf.validCount
    unfold ValidatedDownloadsInvariant at hvc
    rw [hm] at hvc
    by_cases hP : (0 : Int) < st.nBlocksInFlightValidHeaders
    · have hc : countValidatedPeers [((p : NodeId), st)] = 1 := by
        simp [countValidatedPeers, countP, List.filter_cons, hP]
      rw [hc] at hvc
      rw [if_pos (by omega : st.nBlocksInFlightValidHeaders ≠ 0)]
      omega
    · have hc : countValidatedPeers [((p : NodeId), st)] = 0 := by
        simp [countValidatedPeers, countP, List.filter_cons, hP]
      rw [hc] at hvc
      rw [if_neg (show ¬ st.nBlocksInFlightValidHeaders ≠ 0 by omega)]
      omega

theorem finalize_last_peer_consistency_witness :
    (FinalizeNode 1 (InitializeNode 1 initialState)).2.mapNodeState = []
      ∧ (FinalizeNode 1 (InitializeNode 1 initialState)).2.mapBlocksInFlight = []
      ∧ (FinalizeNode 1 (InitializeNode 1 initialState)).2.nPreferredDownload = 0
      ∧ (FinalizeNode 1 (InitializeNode 1 initialState)).2.nPeersWithValidatedDownloads
          = 0 :=
  finalize_last_peer_consistency (InitializeNode 1 initialState) 1
    (Reachable.step Reachable.init (Step.initializeNode 1 initialState))
    (by decide)

/-! ## C6: AddOrphanTx -/

theorem byPrevGet_foldl_insert_mono {hash : Uint256} {p : Uint256}
    (vin : List Uint256) (acc : List (Uint256 × Finset Uint256))
    (h : hash ∈ byPrevGet p acc) :
    hash ∈ byPrevGet p
      (vin.foldl
        (fun acc prevHash =>
          mapSet prevHash (insert hash (byPrevGet prevHash acc)) acc) acc) := by
  induction vin generalizing acc with
  | nil => exact h
  | cons q rest ih =>
    simp only [List.foldl_cons]
    apply ih
    by_cases hp : p = q
    · subst hp
      unfold byPrevGet
      rw [mapFind_mapSet_self]
      exact Finset.mem_insert_of_mem h
    · unfold byPrevGet
      rw [mapFind_mapSet_ne hp]
      exact h

theorem byPrevGet_foldl_insert_mem (hash : Uint256) (vin : List Uint256)
    (acc : List (Uint256 × Finset Uint256)) :
    ∀ p ∈ vin, hash ∈ byPrevGet p
      (vin.foldl
        (fun acc prevHash =>
          mapSet prevHash (insert hash (byPrevGet prevHash acc)) acc) acc) := by
  induction vin generalizing acc with
  | nil => intro p hp; cases hp
  | cons q rest ih =>
    intro p hp
    simp only [List.foldl_cons]
    rcases List.mem_cons.mp hp with rfl | hp'
    · apply byPrevGet_foldl_insert_mono
      unfold byPrevGet
      rw [mapFind_mapSet_self]
      exact Finset.mem_insert_self _ _
    · exact ih _ p hp'

/-- C6: `AddOrphanTx` returns false and leaves the orphan pool unchanged
when the tx hash is already present or the serialized size exceeds 5000
bytes; otherwise it returns true, inserts the `(tx, peer)` entry under
the tx hash, and adds the tx hash to the reverse-index set of each
input's referenced previous-tx hash. -/
theorem addOrphanTx_spec (tx : CTransaction) (peer : NodeId)
    (s : OrphanState) :
    ((mapFind tx.hash s.mapOrphanTransactions ≠ none
        ∨ 5000 < tx.serializedSize) →
      AddOrphanTx tx peer s = (false, s))
    ∧ (mapFind tx.hash s.mapOrphanTransactions = none →
       tx.serializedSize ≤ 5000 →
        (AddOrphanTx tx peer s).1 = true
        ∧ mapFind tx.hash (AddOrphanTx tx peer s).2.mapOrphanTransactions
            = some ⟨tx, peer⟩
        ∧ ∀ p ∈ tx.vin,
            tx.hash ∈ byPrevGet p
              (AddOrphanTx tx peer s).2.mapOrphanTransactionsByPrev) := by
  constructor
  · intro h
    unfold AddOrphanTx
    by_cases h1 : (mapFind tx.hash s.mapOrphanTransactions).isSome
    · rw [if_pos h1]
    · rw [if_neg h1, if_pos]
      rcases h with h | h
      · exact absurd (Option.ne_none_iff_isSome.mp h) h1
      · exact h
  · intro hn hsz
    unfold AddOrphanTx
    rw [if_neg (by simp [hn]), if_neg (by omega)]
    refine ⟨rfl, mapFind_mapSet_self _ _ _, ?_⟩
    exact byPrevGet_foldl_insert_mem tx.hash tx.vin
      s.mapOrphanTransactionsByPrev

/-- A small orphan: hash 5, two inputs spending 7 and 9, 100 bytes. -/
def exTxSmall : CTransaction := ⟨5, [7, 9], 100⟩

/-- An oversized orphan: 6000 serialized bytes. -/
def exTxBig : CTransaction := ⟨6, [7], 6000⟩

theorem addOrphanTx_spec_witness :
    (AddOrphanTx exTxSmall 3 ⟨[], []⟩).1 = true
    ∧ mapFind exTxSmall.hash
        (AddOrphanTx exTxSmall 3 ⟨[], []⟩).2.mapOrphanTransactions
        = some ⟨exTxSmall, 3⟩
    ∧ exTxSmall.hash ∈ byPrevGet 7
        (AddOrphanTx exTxSmall 3 ⟨[], []⟩).2.mapOrphanTransactionsByPrev
    ∧ AddOrphanTx exTxBig 3 ⟨[], []⟩ = (false, ⟨[], []⟩) :=
  ⟨((addOrphanTx_spec exTxSmall 3 ⟨[], []⟩).2 rfl (by decide)).1,
   ((addOrphanTx_spec exTxSmall 3 ⟨[], []⟩).2 rfl (by decide)).2.1,
   ((addOrphanTx_spec exTxSmall 3 ⟨[], []⟩).2 rfl (by decide)).2.2 7 (by decide),
   (addOrphanTx_spec exTxBig 3 ⟨[], []⟩).1 (Or.inr (by decide))⟩

/-! ## C7: LimitOrphanTxSize -/

/-- Spec invariant 6, as a function: the set of orphan hashes (map keys)
whose transaction spends `p`. -/
def orphanRevSet (m : List (Uint256 × COrphanTx)) (p : Uint256) :
    Finset Uint256 :=
  ((m.filter (fun kv => decide (p ∈ kv.2.tx.vin))).map Prod.fst).toFinset

/-- Well-formedness of the orphan pool: unique keys on both maps, and the
reverse index is exactly the union over orphans of
`{(input.prev, orphan.hash)}`. -/
def OrphanWF (s : OrphanState) : Prop :=
  (s.mapOrphanTransactions.map Prod.fst).Nodup
  ∧ (s.mapOrphanTransactionsByPrev.map Prod.fst).Nodup
  ∧ ∀ p, byPrevGet p s.mapOrphanTransactionsByPrev
      = orphanRevSet s.mapOrphanTransactions p

theorem orphanRevSet_cons (x : Uint256 × COrphanTx)
    (l : List (Uint256 × COrphanTx)) (p : Uint256) :
    orphanRevSet (x :: l) p
      = if p ∈ x.2.tx.vin then insert x.1 (orphanRevSet l p)
        else orphanRevSet l p := by
  unfold orphanRevSet
  by_cases hp : p ∈ x.2.tx.vin <;>
    simp [List.filter_cons, hp]

theorem orphanRevSet_subset_keys {m : List (Uint256 × COrphanTx)}
    {p h : Uint256} (hmem : h ∈ orphanRevSet m p) : h ∈ m.map Prod.fst := by
  unfold orphanRevSet at hmem
  rw [List.mem_toFinset] at hmem
  rcases List.mem_map.mp hmem with ⟨kv, hkv, rfl⟩
  exact List.mem_map_of_mem Prod.fst (List.mem_of_mem_filter hkv)

theorem orphanRevSet_mapErase {m : List (Uint256 × COrphanTx)}
    (hnd : (m.map Prod.fst).Nodup) {k : Uint256} {o : COrphanTx}
    (hfind : mapFind k m = some o) (p : Uint256) :
    orphanRevSet (mapErase k m) p
      = if p ∈ o.tx.vin then (orphanRevSet m p).erase k
        else orphanRevSet m p := by
  induction m with
  | nil => cases hfind
  | cons x xs ih =>
    simp only [List.map_cons, List.nodup_cons] at hnd
    simp only [mapFind] at hfind
    simp only [mapErase]
    split at hfind
    · next hx =>
      cases hfind
      rw [if_pos hx, orphanRevSet_cons]
      have hknot : k ∉ orphanRevSet xs p := by
        intro hc
        exact hnd.1 (hx ▸ orphanRevSet_subset_keys hc)
      by_cases hp : p ∈ x.2.tx.vin
      · rw [if_pos hp, if_pos hp, hx, Finset.erase_insert hknot]
      · rw [if_neg hp, if_neg hp]
    · next hx =>
      rw [if_neg hx, orphanRevSet_cons, orphanRevSet_cons, ih hnd.2 hfind]
      have hxk : x.1 ≠ k := hx
      by_cases hp : p ∈ x.2.tx.vin <;> by_cases ho : p ∈ o.tx.vin <;>
        simp only [hp, ho, if_true, if_false]
      · rw [Finset.erase_insert_of_ne hxk]

theorem byPrev_erase_step_get {k : Uint256} (q : Uint256)
    (acc : List (Uint256 × Finset Uint256))
    (hnd : (acc.map Prod.fst).Nodup) (p : Uint256) :
    byPrevGet p
        (match mapFind q acc with
         | none => acc
         | some set0 =>
           if set0.erase k = ∅ then mapErase q acc
           else mapSet q (set0.erase k) acc)
      = if p = q then (byPrevGet p acc).erase k else byPrevGet p acc := by
  cases hm : mapFind q acc with
  | none =>
    dsimp only
    by_cases hp : p = q
    · subst hp
      rw [if_pos rfl]
      unfold byPrevGet
      rw [hm]
      simp
    · rw [if_neg hp]
  | some set0 =>
    dsimp only
    by_cases hp : p = q
    · subst hp
      rw [if_pos rfl]
      split
      · next hempty =>
        unfold byPrevGet
        rw [mapFind_mapErase_self hnd, hm]
        simp [hempty]
      · unfold byPrevGet
        rw [mapFind_mapSet_self, hm]
        rfl
    · rw [if_neg hp]
      split
      · unfold byPrevGet
        rw [mapFind_mapErase_ne hp]
      · unfold byPrevGet
        rw [mapFind_mapSet_ne hp]

theorem byPrev_erase_step_nodup {k : Uint256} (q : Uint256)
    (acc : List (Uint256 × Finset Uint256))
    (hnd : (acc.map Prod.fst).Nodup) :
    ((match mapFind q acc with
      | none => acc
      | some set0 =>
        if set0.erase k = ∅ then mapErase q acc
        else mapSet q (set0.erase k) acc).map Prod.fst).Nodup := by
  cases hm : mapFind q acc with
  | none => exact hnd
  | some set0 =>
    dsimp only
    split
    · exact hnd.sublist (keys_mapErase_sublist _ _)
    · rw [keys_mapSet_of_some hm]
      exact hnd

theorem byPrev_erase_fold_get {k : Uint256} (vin : List Uint256)
    (acc : List (Uint256 × Finset Uint256))
    (hnd : (acc.map Prod.fst).Nodup) (p : Uint256) :
    byPrevGet p
        (vin.foldl
          (fun acc prevHash =>
            match mapFind prevHash acc with
            | none => acc
            | some set0 =>
              if set0.erase k = ∅ then mapErase prevHash acc
              else mapSet prevHash (set0.erase k) acc) acc)
      = if p ∈ vin then (byPrevGet p acc).erase k else byPrevGet p acc := by
  induction vin generalizing acc with
  | nil => simp
  | cons q rest ih =>
    simp only [List.foldl_cons, List.mem_cons]
    rw [ih _ (byPrev_erase_step_nodup q acc hnd),
      byPrev_erase_step_get q acc hnd p]
    by_cases hp : p = q <;> by_cases hr : p ∈ rest <;>
      simp only [hp, hr, if_true, if_false, true_or, or_true, or_false,
        false_or, Finset.erase_idem, ite_self]

theorem byPrev_erase_fold_nodup {k : Uint256} (vin : List Uint256)
    (acc : List (Uint256 × Finset Uint256))
    (hnd : (acc.map Prod.fst).Nodup) :
    ((vin.foldl
        (fun acc prevHash =>
          match mapFind prevHash acc with
          | none => acc
          | some set0 =>
            if set0.erase k = ∅ then mapErase prevHash acc
            else mapSet prevHash (set0.erase k) acc) acc).map
        Prod.fst).Nodup := by
  induction vin generalizing acc with
  | nil => exact hnd
  | cons q rest ih =>
    simp only [List.foldl_cons]
    exact ih _ (byPrev_erase_step_nodup q acc hnd)

theorem eraseOrphanTx_wf {k : Uint256} {s : OrphanState}
    (hwf : OrphanWF s) : OrphanWF (EraseOrphanTx k s) := by
  obtain ⟨hnd1, hnd2, hrev⟩ := hwf
  unfold EraseOrphanTx
  cases hm : mapFind k s.mapOrphanTransactions with
  | none => exact ⟨hnd1, hnd2, hrev⟩
  | some o =>
    dsimp only
    refine ⟨hnd1.sublist (keys_mapErase_sublist _ _),
      byPrev_erase_fold_nodup _ _ hnd2, ?_⟩
    intro p
    rw [byPrev_erase_fold_get _ _ hnd2 p, orphanRevSet_mapErase hnd1 hm p,
      hrev p]

theorem eraseOrphanTx_length_eq {k : Uint256} {s : OrphanState}
    (h : mapFind k s.mapOrphanTransactions ≠ none) :
    s.mapOrphanTransactions.length
      = (EraseOrphanTx k s).mapOrphanTransactions.length + 1 := by
  unfold EraseOrphanTx
  cases hm : mapFind k s.mapOrphanTransactions with
  | none => exact absurd hm h
  | some orphan =>
    dsimp only
    exact length_mapErase_of_some hm

theorem limitOrphan_aux (rand : Nat → Uint256) (nMaxOrphans : Nat) :
    ∀ (n : Nat) (s : OrphanState), s.mapOrphanTransactions.length ≤ n →
      ∀ (i : Nat), OrphanWF s →
      (LimitOrphanTxSize rand i nMaxOrphans s).2.mapOrphanTransactions.length
          ≤ nMaxOrphans
      ∧ (LimitOrphanTxSize rand i nMaxOrphans s).1
          = s.mapOrphanTransactions.length
            - (LimitOrphanTxSize rand i
                nMaxOrphans s).2.mapOrphanTransactions.length
      ∧ OrphanWF (LimitOrphanTxSize rand i nMaxOrphans s).2 := by
  intro n
  induction n with
  | zero =>
    intro s hlen i hwf
    unfold LimitOrphanTxSize
    rw [if_neg (by omega)]
    dsimp only
    exact ⟨by omega, by omega, hwf⟩
  | succ n ih =>
    intro s hlen i hwf
    unfold LimitOrphanTxSize
    by_cases hc : nMaxOrphans < s.mapOrphanTransactions.length
    · rw [if_pos hc]
      split
      · next hk =>
        exfalso
        have hne : s.mapOrphanTransactions ≠ [] := by
          intro hnil
          rw [hnil] at hc
          simp at hc
        rcases lowerBoundKey_isSome (r := rand i) hne with ⟨k0, hk0⟩
        rw [hk0] at hk
        cases hk
      · next k hk =>
        dsimp only
        have hkfind := mapFind_ne_none_of_key_mem (lowerBoundKey_mem hk)
        have hlen' := eraseOrphanTx_length_eq hkfind
        have hwf' := eraseOrphanTx_wf (k := k) hwf
        have IH := ih (EraseOrphanTx k s) (by omega) (i + 1) hwf'
        refine ⟨IH.1, ?_, IH.2.2⟩
        have h1 := IH.1
        have h2 := IH.2.1
        omega
    · rw [if_neg hc]
      dsimp only
      exact ⟨by omega, by omega, hwf⟩

/-- C7: `LimitOrphanTxSize(cap)` terminates (it is a total function of the
embedded state), leaves the orphan pool with at most `cap` entries,
returns exactly the number of orphans it erased, and each erased orphan
is removed together with all of its reverse-index entries: in a
well-formed pool, after the call no reverse-index set mentions a hash
that is no longer in the pool. -/
theorem limitOrphanTxSize_spec (rand : Nat → Uint256) (i nMaxOrphans : Nat)
    (s : OrphanState) (hwf : OrphanWF s) :
    (LimitOrphanTxSize rand i nMaxOrphans s).2.mapOrphanTransactions.length
        ≤ nMaxOrphans
    ∧ (LimitOrphanTxSize rand i nMaxOrphans s).1
        = s.mapOrphanTransactions.length
          - (LimitOrphanTxSize rand i
              nMaxOrphans s).2.mapOrphanTransactions.length
    ∧ OrphanWF (LimitOrphanTxSize rand i nMaxOrphans s).2
    ∧ ∀ h p,
        mapFind h
            (LimitOrphanTxSize rand i
              nMaxOrphans s).2.mapOrphanTransactions = none →
        h ∉ byPrevGet p
            (LimitOrphanTxSize rand i
              nMaxOrphans s).2.mapOrphanTransactionsByPrev := by
  have A := limitOrphan_aux rand nMaxOrphans
    s.mapOrphanTransactions.length s le_rfl i hwf
  refine ⟨A.1, A.2.1, A.2.2, ?_⟩
  intro h p hnone hc
  obtain ⟨_, _, hrev⟩ := A.2.2
  rw [hrev p] at hc
  exact mapFind_ne_none_of_key_mem (orphanRevSet_subset_keys hc) hnone

/-- Two orphans (hashes 5 and 6) both spending output-tx 7, with the
matching reverse index. -/
def exOrphans : OrphanState :=
  { mapOrphanTransactions :=
      [(5, ⟨⟨5, [7], 100⟩, 1⟩), (6, ⟨⟨6, [7], 100⟩, 2⟩)]
    mapOrphanTransactionsByPrev := [(7, {5, 6})] }

theorem exOrphans_wf : OrphanWF exOrphans := by
  refine ⟨by decide, by decide, ?_⟩
  intro p
  by_cases hp : p = 7
  · subst hp
    decide
  · simp [exOrphans, byPrevGet, mapFind, orphanRevSet, List.filter_cons,
      hp, Ne.symm hp]

theorem limitOrphanTxSize_spec_witness :
    (LimitOrphanTxSize (fun _ => 0) 0 1
        exOrphans).2.mapOrphanTransactions.length ≤ 1
    ∧ (LimitOrphanTxSize (fun _ => 0) 0 1 exOrphans).1
        = exOrphans.mapOrphanTransactions.length
          - (LimitOrphanTxSize (fun _ => 0) 0 1
              exOrphans).2.mapOrphanTransactions.length
    ∧ OrphanWF (LimitOrphanTxSize (fun _ => 0) 0 1 exOrphans).2
    ∧ ∀ h p,
        mapFind h
            (LimitOrphanTxSize (fun _ => 0) 0 1
              exOrphans).2.mapOrphanTransactions = none →
        h ∉ byPrevGet p
            (LimitOrphanTxSize (fun _ => 0) 0 1
              exOrphans).2.mapOrphanTransactionsByPrev :=
  limitOrphanTxSize_spec (fun _ => 0) 0 1 exOrphans exOrphans_wf

/-! ## C5: AlreadyHave -/

/-- Inventory types used by the excerpt. -/
inductive InvType where
  | MSG_TX
  | MSG_BLOCK
  | MSG_FILTERED_BLOCK
  | MSG_STX
deriving DecidableEq

/-- A (type, hash) inventory entry. -/
structure CInv where
  type : InvType
  hash : Uint256
deriving DecidableEq

/-- The rolling rejection filter state: the stored chain-tip hash
(`hashRecentRejectsChainTip`) and the filter's membership predicate
(`recentRejects->contains`); `reset()` makes the predicate constantly
false. -/
structure RejectsState where
  hashRecentRejectsChainTip : Uint256
  recentRejects : Uint256 → Bool

/-- Read-only collaborators consulted by `AlreadyHave`: the active chain
tip, the mempool, the service-tx pool, the coin cache and the block
index. -/
structure ChainEnv where
  tipHash : Uint256
  mempoolExists : Uint256 → Bool
  stxMempoolExists : Uint256 → Bool
  haveCoinInCache : Uint256 → Nat → Bool
  blockIndexHas : Uint256 → Bool

/-- `AlreadyHave(inv)`: for a tx-inv, first reset the rejects filter when
the chain tip moved, then test the filter, the mempool, the orphan pool
and coin-cache outputs 0 and 1 (best effort); for a block-inv consult the
block index; for a service-tx-inv the service-tx pool; unknown types
count as already-had. -/
def AlreadyHave (env : ChainEnv) (orphans : OrphanState) (rj : RejectsState)
    (inv : CInv) : Bool × RejectsState :=
  match inv.type with
  | InvType.MSG_TX =>
    let rj' :=
      if env.tipHash ≠ rj.hashRecentRejectsChainTip then
        { hashRecentRejectsChainTip := env.tipHash
          recentRejects := fun _ => false }
      else rj
    (rj'.recentRejects inv.hash || env.mempoolExists inv.hash
      || (mapFind inv.hash orphans.mapOrphanTransactions).isSome
      || env.haveCoinInCache inv.hash 0
      || env.haveCoinInCache inv.hash 1, rj')
  | InvType.MSG_BLOCK => (env.blockIndexHas inv.hash, rj)
  | InvType.MSG_STX => (env.stxMempoolExists inv.hash, rj)
  | InvType.MSG_FILTERED_BLOCK => (true, rj)

/-- C5: for a tx-inventory query, `AlreadyHave` resets the recent-rejects
filter (and records the new tip hash) exactly when the active chain tip
differs from the one stored at the previous query, and returns true iff
the tx hash is in the (post-reset) recent-rejects filter, the mempool,
the orphan pool, or the coin cache has a coin at output 0 or 1. -/
theorem alreadyHave_tx_spec (env : ChainEnv) (orphans : OrphanState)
    (rj : RejectsState) (hash : Uint256) :
    (AlreadyHave env orphans rj ⟨InvType.MSG_TX, hash⟩).2.hashRecentRejectsChainTip
        = env.tipHash
    ∧ (env.tipHash ≠ rj.hashRecentRejectsChainTip →
        (AlreadyHave env orphans rj ⟨InvType.MSG_TX, hash⟩).2.recentRejects
          = fun _ => false)
    ∧ (env.tipHash = rj.hashRecentRejectsChainTip →
        (AlreadyHave env orphans rj ⟨InvType.MSG_TX, hash⟩).2 = rj)
    ∧ (AlreadyHave env orphans rj ⟨InvType.MSG_TX, hash⟩).1
        = ((AlreadyHave env orphans rj
              ⟨InvType.MSG_TX, hash⟩).2.recentRejects hash
            || env.mempoolExists hash
            || (mapFind hash orphans.mapOrphanTransactions).isSome
            || env.haveCoinInCache hash 0
            || env.haveCoinInCache hash 1) := by
  unfold AlreadyHave
  dsimp only
  by_cases ht : env.tipHash ≠ rj.hashRecentRejectsChainTip
  · rw [if_pos ht]
    exact ⟨rfl, fun _ => rfl, fun hc => absurd hc ht, rfl⟩
  · rw [if_neg ht]
    push_neg at ht
    exact ⟨ht.symm ▸ rfl, fun hc => absurd hc (by rw [ht]; exact fun h => h rfl),
      fun _ => rfl, rfl⟩

/-- A rejects filter that remembers tip 100 and contains hash 42. -/
def exRejects : RejectsState :=
  { hashRecentRejectsChainTip := 100
    recentRejects := fun h => h == 42 }

/-- An environment whose tip is 200 (different from the stored 100). -/
def exChainEnv : ChainEnv :=
  { tipHash := 200
    mempoolExists := fun _ => false
    stxMempoolExists := fun _ => false
    haveCoinInCache := fun _ _ => false
    blockIndexHas := fun _ => false }

theorem alreadyHave_tx_spec_witness :
    (AlreadyHave exChainEnv ⟨[], []⟩ exRejects
        ⟨InvType.MSG_TX, 42⟩).2.hashRecentRejectsChainTip = 200
    ∧ (AlreadyHave exChainEnv ⟨[], []⟩ exRejects
        ⟨InvType.MSG_TX, 42⟩).2.recentRejects = (fun _ => false)
    ∧ (AlreadyHave exChainEnv ⟨[], []⟩ exRejects ⟨InvType.MSG_TX, 42⟩).1
        = ((AlreadyHave exChainEnv ⟨[], []⟩ exRejects
              ⟨InvType.MSG_TX, 42⟩).2.recentRejects 42
            || exChainEnv.mempoolExists 42
            || (mapFind 42 (⟨[], []⟩ : OrphanState).mapOrphanTransactions).isSome
            || exChainEnv.haveCoinInCache 42 0
            || exChainEnv.haveCoinInCache 42 1) :=
  ⟨(alreadyHave_tx_spec exChainEnv ⟨[], []⟩ exRejects 42).1,
   (alreadyHave_tx_spec exChainEnv ⟨[], []⟩ exRejects 42).2.1 (by decide),
   (alreadyHave_tx_spec exChainEnv ⟨[], []⟩ exRejects 42).2.2.2⟩

/-! ## Message handlers: VERSION, PONG, SendMessages -/

/-- The fields of `CNode` the embedded handlers read or write. -/
structure CNode where
  id : NodeId
  nVersion : Int
  nServices : Nat
  nServicesExpected : Nat
  fInbound : Bool
  fWhitelisted : Bool
  fOneShot : Bool
  fClient : Bool
  fFeeler : Bool
  fDisconnect : Bool
  fSuccessfullyConnected : Bool
  fRelayTxes : Bool
  fGetAddr : Bool
  fPingQueued : Bool
  nStartingHeight : Int
  nSendVersion : Int
  strSubVer : String
  cleanSubVer : String
  nTimeOffset : Int
  nPingNonceSent : Nat
  nPingUsecStart : Int
  nPingUsecTime : Int
  nMinPingUsecTime : Int
deriving DecidableEq

/-- Observable effects of a handler: messages pushed to the transport and
calls into external collaborators. -/
inductive Effect where
  | msgReject (command : String) (code : Nat) (reason : String)
  | msgVersion
  | msgVerack
  | msgGetAddr
  | msgSendHeaders
  | msgPing (nonce : Nat)
  | msgPong (nonce : Nat)
  | setServices
  | setAddrLocal
  | seenLocal
  | pushAddress
  | markAddressGood
  | addTimeData
deriving DecidableEq

/-- Modelled from the spec: reject codes (§6) — `protocol.h` is not part
of the excerpt.  0x11 obsolete, 0x12 duplicate, 0x40 nonstandard. -/
def REJECT_OBSOLETE : Nat := 0x11

/-- Modelled from the spec: the duplicate reject code 0x12 (§6). -/
def REJECT_DUPLICATE : Nat := 0x12

/-- Modelled from the spec: the nonstandard reject code 0x40 (§6). -/
def REJECT_NONSTANDARD : Nat := 0x40

/-- Modelled from the spec: the `NODE_NETWORK` service bit
(`protocol.h` is not in the excerpt); its exact value does not affect the
theorems below. -/
def NODE_NETWORK : Nat := 1

/-- External collaborators of the VERSION handler. -/
structure MsgEnv where
  protocolVersion : Int
  minProtoVersion : Int
  checkIncomingNonce : Nat → Bool
  sanitize : String → String
  fListen : Bool
  isInitialBlockDownload : Bool
  localAddrRoutable : Bool
  isPeerAddrLocalGood : Bool
  addressCount : Nat
  now : Int

/-- The fields of a VERSION payload (`vRecv`); the optional trailing
fields are modelled as always present (a short payload leaves them at
their defaults before this point). -/
structure VersionPayload where
  nVersion : Int
  nServices : Nat
  nTime : Int
  addrMeRoutable : Bool
  nNonce : Nat
  strSubVer : String
  nStartingHeight : Int
  fRelay : Bool

/-- The `NetMsgType::VERSION` branch of `ProcessMessage`.  Returns the
C++ return value, the updated `CNode`, the updated registry state, and
the emitted effects in order. -/
def processVersion (env : MsgEnv) (banscore : Int) (vRecv : VersionPayload)
    (pfrom : CNode) (s : NetState) : Bool × CNode × NetState × List Effect :=
  -- Each connection can only send one version message
  if pfrom.nVersion ≠ 0 then
    (false, pfrom, Misbehaving banscore pfrom.id 1 "multiple-version" s,
     [Effect.msgReject "version" REJECT_DUPLICATE "Duplicate version message"])
  else
    let nSendVersion := min vRecv.nVersion env.protocolVersion
    let eff0 : List Effect :=
      if ¬ pfrom.fInbound then [Effect.setServices] else []
    if ¬ (pfrom.nServicesExpected &&& vRecv.nServices
            = pfrom.nServicesExpected) then
      (false, { pfrom with fDisconnect := true }, s,
        eff0 ++ [Effect.msgReject "version" REJECT_NONSTANDARD
          "Expected to offer services"])
    else if vRecv.nVersion < env.minProtoVersion then
      (false, { pfrom with fDisconnect := true }, s,
        eff0 ++ [Effect.msgReject "version" REJECT_OBSOLETE
          "Version must be greater"])
    -- Disconnect if we connected to ourself
    else if pfrom.fInbound ∧ ¬ env.checkIncomingNonce vRecv.nNonce then
      (true, { pfrom with fDisconnect := true }, s, eff0)
    else
      let eff1 := eff0 ++
        (if pfrom.fInbound ∧ vRecv.addrMeRoutable then [Effect.seenLocal]
         else []) ++
        (if pfrom.fInbound then [Effect.msgVersion] else []) ++
        [Effect.msgVerack, Effect.setAddrLocal]
      let pfrom1 : CNode :=
        { pfrom with
          nServices := vRecv.nServices
          strSubVer := vRecv.strSubVer
          cleanSubVer := env.sanitize vRecv.strSubVer
          nStartingHeight := vRecv.nStartingHeight
          fClient := decide (vRecv.nServices &&& NODE_NETWORK = 0)
          fRelayTxes := vRecv.fRelay
          nSendVersion := nSendVersion
          nVersion := vRecv.nVersion }
      -- Potentially mark this peer as a preferred download peer.
      let s1 := UpdatePreferredDownload pfrom1.fInbound pfrom1.fWhitelisted
        pfrom1.fOneShot pfrom1.fClient pfrom.id s
      let getAddrNow := pfrom.fOneShot ∨ env.addressCount < 1000
      let eff2 := eff1 ++
        (if ¬ pfrom.fInbound then
          (if env.fListen ∧ ¬ env.isInitialBlockDownload
              ∧ (env.localAddrRoutable ∨ env.isPeerAddrLocalGood)
           then [Effect.pushAddress] else []) ++
          (if getAddrNow then [Effect.msgGetAddr] else []) ++
          [Effect.markAddressGood]
         else []) ++
        [Effect.addTimeData]
      let pfrom2 : CNode :=
        { pfrom1 with
          fGetAddr :=
            if ¬ pfrom.fInbound ∧ getAddrNow then true else pfrom1.fGetAddr
          nTimeOffset := vRecv.nTime - env.now }
      -- Feeler connections exist only to verify if address is online.
      let pfrom3 :=
        if pfrom.fFeeler then { pfrom2 with fDisconnect := true } else pfrom2
      (true, pfrom3, s1, eff2)

/-- The `NetMsgType::PONG` branch of `ProcessMessage`.  `nTimeReceived`
is the receive timestamp; `payloadNonce` is `none` for a short payload.
`bPingFinished` (clearing `nPingNonceSent`) is folded into each branch. -/
def processPong (nTimeReceived : Int) (payloadNonce : Option Nat)
    (pfrom : CNode) : CNode :=
  match payloadNonce with
  | some nonce =>
    -- Only process pong message if there is an outstanding ping
    if pfrom.nPingNonceSent ≠ 0 then
      if nonce = pfrom.nPingNonceSent then
        let pingUsecTime := nTimeReceived - pfrom.nPingUsecStart
        if 0 < pingUsecTime then
          -- Successful ping time measurement, replace previous
          { pfrom with
            nPingUsecTime := pingUsecTime
            nMinPingUsecTime := min pfrom.nMinPingUsecTime pingUsecTime
            nPingNonceSent := 0 }
        else
          -- "Timing mishap": the ping is still no longer outstanding
          { pfrom with nPingNonceSent := 0 }
      else if nonce = 0 then
        -- "Nonce zero": cancel this ping
        { pfrom with nPingNonceSent := 0 }
      else
        -- "Nonce mismatch": overlapping pings, ignore
        pfrom
    else
      -- "Unsolicited pong without ping"
      pfrom
  | none =>
    -- "Short payload": cancel this ping
    { pfrom with nPingNonceSent := 0 }

/-- External inputs of a `SendMessages` tick. -/
structure SendEnv where
  now : Int
  pingInterval : Int
  randNonce : Nat
  lockMainAvailable : Bool

/-- The ping block at the top of `SendMessages`. -/
def sendMessagesPing (env : SendEnv) (pto : CNode) : CNode × List Effect :=
  let pingSend := pto.fPingQueued
  let pingSend :=
    if pto.nPingNonceSent = 0
        ∧ pto.nPingUsecStart + env.pingInterval * 1000000 < env.now then
      true
    else pingSend
  if pingSend then
    ({ pto with
        fPingQueued := false
        nPingUsecStart := env.now
        nPingNonceSent := env.randNonce },
      [Effect.msgPing env.randNonce])
  else (pto, [])

/-- `SendMessages(pto)`.  The body after the `TRY_LOCK(cs_main)` line is
abstracted as the continuation `rest`; the handshake guard and the ping
block are concrete.  The claims proved about this function hold for every
continuation, i.e. regardless of what the rest of the tick does. -/
def SendMessages (env : SendEnv)
    (rest : CNode → NetState → List Effect → Bool × CNode × NetState × List Effect)
    (pto : CNode) (s : NetState) : Bool × CNode × NetState × List Effect :=
  -- Don't send anything until the version handshake is complete
  if ¬ pto.fSuccessfullyConnected ∨ pto.fDisconnect then (true, pto, s, [])
  else
    let r := sendMessagesPing env pto
    if ¬ env.lockMainAvailable then (true, r.1, s, r.2)
    else rest r.1 s r.2

/-- C8: for a peer whose recorded protocol version is already nonzero,
processing another VERSION message sends exactly one REJECT reply with
the duplicate code, adds exactly +1 to the peer's misbehavior score
(setting should-ban only if that +1 crosses the threshold), and processes
none of the message's fields: the `CNode` is returned unchanged and the
only registry change is the `Misbehaving(pfrom, 1)` call. -/
theorem processVersion_duplicate (env : MsgEnv) (banscore : Int)
    (vRecv : VersionPayload) (pfrom : CNode) (s : NetState) (st : CNodeState)
    (hdup : pfrom.nVersion ≠ 0)
    (hreg : mapFind pfrom.id s.mapNodeState = some st) :
    processVersion env banscore vRecv pfrom s
      = (false, pfrom, Misbehaving banscore pfrom.id 1 "multiple-version" s,
         [Effect.msgReject "version" REJECT_DUPLICATE
           "Duplicate version message"])
    ∧ mapFind pfrom.id
        (processVersion env banscore vRecv pfrom s).2.2.1.mapNodeState
      = some { st with
          nMisbehavior := st.nMisbehavior + 1
          fShouldBan :=
            if st.nMisbehavior + 1 ≥ banscore
                ∧ st.nMisbehavior + 1 - 1 < banscore
            then true else st.fShouldBan } := by
  have heq : processVersion env banscore vRecv pfrom s
      = (false, pfrom, Misbehaving banscore pfrom.id 1 "multiple-version" s,
         [Effect.msgReject "version" REJECT_DUPLICATE
           "Duplicate version message"]) := by
    unfold processVersion
    rw [if_pos hdup]
  refine ⟨heq, ?_⟩
  rw [heq]
  dsimp only
  unfold Misbehaving
  rw [if_neg (by omega : ¬ (1 : Int) = 0), hreg]
  dsimp only
  rw [mapFind_mapSet_self]

/-- A fully concrete peer record. -/
def exNodeBase : CNode :=
  { id := 1
    nVersion := 0
    nServices := 0
    nServicesExpected := 0
    fInbound := true
    fWhitelisted := false
    fOneShot := false
    fClient := false
    fFeeler := false
    fDisconnect := false
    fSuccessfullyConnected := false
    fRelayTxes := false
    fGetAddr := false
    fPingQueued := false
    nStartingHeight := 0
    nSendVersion := 0
    strSubVer := ""
    cleanSubVer := ""
    nTimeOffset := 0
    nPingNonceSent := 0
    nPingUsecStart := 0
    nPingUsecTime := 0
    nMinPingUsecTime := 0 }

def exMsgEnv : MsgEnv :=
  { protocolVersion := 70015
    minProtoVersion := 60002
    checkIncomingNonce := fun _ => true
    sanitize := fun t => t
    fListen := true
    isInitialBlockDownload := false
    localAddrRoutable := true
    isPeerAddrLocalGood := true
    addressCount := 0
    now := 0 }

def exPayload : VersionPayload :=
  { nVersion := 70015
    nServices := 1
    nTime := 0
    addrMeRoutable := false
    nNonce := 7
    strSubVer := ""
    nStartingHeight := 0
    fRelay := true }

theorem processVersion_duplicate_witness :
    processVersion exMsgEnv 100 exPayload
        { exNodeBase with nVersion := 70015 } exState1
      = (false, { exNodeBase with nVersion := 70015 },
         Misbehaving 100 1 1 "multiple-version" exState1,
         [Effect.msgReject "version" REJECT_DUPLICATE
           "Duplicate version message"])
    ∧ mapFind 1
        (processVersion exMsgEnv 100 exPayload
          { exNodeBase with nVersion := 70015 } exState1).2.2.1.mapNodeState
      = some { exPeerState with
          nMisbehavior := exPeerState.nMisbehavior + 1
          fShouldBan :=
            if exPeerState.nMisbehavior + 1 ≥ 100
                ∧ exPeerState.nMisbehavior + 1 - 1 < 100
            then true else exPeerState.fShouldBan } :=
  processVersion_duplicate exMsgEnv 100 exPayload
    { exNodeBase with nVersion := 70015 } exState1 exPeerState
    (by decide) (by decide)

/-- C9 counterexample: while ping nonce 5 is outstanding, a PONG carrying
nonce zero is not ignored — it cancels the ping, clearing the
outstanding nonce. -/
def exNodePing : CNode := { exNodeBase with nPingNonceSent := 5 }

theorem pong_zero_nonce_counterexample :
    ¬ (processPong 0 (some 0) exNodePing = exNodePing) := by
  decide

/-- C9 (amended): a PONG records an RTT only when its nonce matches the
outstanding ping nonce (and the measured time is positive), in which case
the outstanding nonce is cleared; an unsolicited PONG (no outstanding
nonce) is ignored; a zero-nonce PONG while a ping is outstanding cancels
the ping (clears the outstanding nonce) without recording an RTT; a
nonzero mismatching nonce is ignored. -/
theorem processPong_spec (t : Int) (nonce : Nat) (pfrom : CNode) :
    (pfrom.nPingNonceSent = 0 → processPong t (some nonce) pfrom = pfrom)
    ∧ (pfrom.nPingNonceSent ≠ 0 → nonce = pfrom.nPingNonceSent →
        (processPong t (some nonce) pfrom).nPingNonceSent = 0
        ∧ (0 < t - pfrom.nPingUsecStart →
            (processPong t (some nonce) pfrom).nPingUsecTime
              = t - pfrom.nPingUsecStart
            ∧ (processPong t (some nonce) pfrom).nMinPingUsecTime
              = min pfrom.nMinPingUsecTime (t - pfrom.nPingUsecStart)))
    ∧ (pfrom.nPingNonceSent ≠ 0 → nonce = 0 →
        processPong t (some nonce) pfrom = { pfrom with nPingNonceSent := 0 })
    ∧ (pfrom.nPingNonceSent ≠ 0 → nonce ≠ pfrom.nPingNonceSent → nonce ≠ 0 →
        processPong t (some nonce) pfrom = pfrom)
    ∧ ((processPong t (some nonce) pfrom).nPingUsecTime ≠ pfrom.nPingUsecTime →
        nonce = pfrom.nPingNonceSent ∧ pfrom.nPingNonceSent ≠ 0) := by
  unfold processPong
  dsimp only
  refine ⟨?_, ?_, ?_, ?_, ?_⟩
  · intro h0
    rw [if_neg (fun hc => hc h0)]
  · intro hn hmatch
    rw [if_pos hn, if_pos hmatch]
    constructor
    · split
      · rfl
      · rfl
    · intro hpos
      rw [if_pos hpos]
      exact ⟨rfl, rfl⟩
  · intro hn hzero
    rw [if_pos hn,
      if_neg (by rw [hzero]; exact fun hc => hn hc.symm), if_pos hzero]
  · intro hn hne hnz
    rw [if_pos hn, if_neg hne, if_neg hnz]
  · intro hchange
    by_cases hn : pfrom.nPingNonceSent ≠ 0
    · by_cases hmatch : nonce = pfrom.nPingNonceSent
      · exact ⟨hmatch, hn⟩
      · exfalso
        rw [if_pos hn, if_neg hmatch] at hchange
        split at hchange
        · exact hchange rfl
        · exact hchange rfl
    · push_neg at hn
      exfalso
      rw [if_neg (fun hc => hc hn)] at hchange
      exact hchange rfl

theorem processPong_spec_witness :
    (processPong 7 (some 5) exNodePing).nPingNonceSent = 0
    ∧ (processPong 7 (some 5) exNodePing).nPingUsecTime
        = 7 - exNodePing.nPingUsecStart
    ∧ processPong 7 (some 0) exNodePing
        = { exNodePing with nPingNonceSent := 0 } :=
  ⟨((processPong_spec 7 5 exNodePing).2.1 (by decide) (by decide)).1,
   (((processPong_spec 7 5 exNodePing).2.1 (by decide) (by decide)).2
     (by decide)).1,
   (processPong_spec 7 0 exNodePing).2.2.1 (by decide) (by decide)⟩

/-- C10: for a peer whose handshake is not complete or that is marked for
disconnect, a `SendMessages` tick returns immediately (returning true)
without emitting any message and without modifying the peer or the
protocol-core state — whatever the rest of the tick would do. -/
theorem sendMessages_handshake_guard (env : SendEnv)
    (rest : CNode → NetState → List Effect →
      Bool × CNode × NetState × List Effect)
    (pto : CNode) (s : NetState)
    (h : ¬ pto.fSuccessfullyConnected ∨ pto.fDisconnect) :
    SendMessages env rest pto s = (true, pto, s, []) := by
  unfold SendMessages
  rw [if_pos h]

def exSendEnv : SendEnv :=
  { now := 0, pingInterval := 120, randNonce := 11, lockMainAvailable := true }

theorem sendMessages_handshake_guard_witness :
    SendMessages exSendEnv (fun c st e => (true, c, st, e)) exNodeBase exState1
      = (true, exNodeBase, exState1, []) :=
  sendMessages_handshake_guard exSendEnv (fun c st e => (true, c, st, e))
    exNodeBase exState1 (Or.inl (by decide))
